import Mathlib

/-!
Shallow embedding of the `case_class` package (PythonCaseClass):
the `Signature` / `AppliedSignature` argument-binding engine
(`src/case_class/signature.py`), the interning metaclass
(`src/case_class/case_class.py`, `src/case_class/clsutils.py`), the
exception taxonomy (`src/case_class/exceptions.py`) and the extractor
combinators (`src/case_class/extractor.py`).
-/

set_option maxRecDepth 8192

/-- A Python value, as far as the binding engine manipulates values:
`None`, integers, strings, tuples and string-keyed dicts.  Dicts are
modelled as insertion-ordered association lists, which is how CPython
dicts behave; equality of the model is Python `==`, which on dicts
ignores insertion order. -/
inductive Value where
  | none : Value
  | int (n : Int) : Value
  | str (s : String) : Value
  | tuple (vs : List Value) : Value
  | dict (es : List (String × Value)) : Value
deriving Repr

abbrev KV := String × Value

/-- Association lists standing for Python dicts (insertion ordered). -/
abbrev PyDict := List KV

namespace PyDict

/-- `d[k]` lookup: first entry with the given key. -/
def get? : PyDict → String → Option Value
  | [], _ => Option.none
  | (k', v) :: rest, k => if k' = k then some v else get? rest k

/-- `k in d`. -/
def hasKey (l : PyDict) (k : String) : Bool :=
  (l.get? k).isSome

/-- `d.pop(k)`: remove the entry with the given key. -/
def pop : PyDict → String → PyDict
  | [], _ => []
  | (k', v) :: rest, k => if k' = k then rest else (k', v) :: pop rest k

/-- `d[k] = v`: overwrite in place if the key is present, else append
(CPython dict insertion-order semantics). -/
def insertKV : PyDict → String → Value → PyDict
  | [], k, v => [(k, v)]
  | (k', v') :: rest, k, v =>
      if k' = k then (k, v) :: rest else (k', v') :: insertKV rest k v

/-- The key list, in order. -/
def keys (l : PyDict) : List String := l.map Prod.fst

end PyDict

mutual

/-- Structural (Python `==`) equality on modelled values.  Two dicts
are equal exactly as in CPython: same number of entries, and every
entry of the left dict is matched by key in the right dict with an
equal value — insertion order is irrelevant. -/
def Value.beq : Value → Value → Bool
  | .none, .none => true
  | .int a, .int b => a == b
  | .str a, .str b => a == b
  | .tuple a, .tuple b => Value.beqL a b
  | .dict a, .dict b => a.length == b.length && Value.beqE a b
  | _, _ => false

/-- `Value.beq` lifted to lists (tuple contents, order-sensitive as in
Python tuple equality). -/
def Value.beqL : List Value → List Value → Bool
  | [], [] => true
  | a :: as, b :: bs => Value.beq a b && Value.beqL as bs
  | _, _ => false

/-- Every entry of the first dict is matched, by key lookup, in the
second: the Python `all(k in d2 and d1[k] == d2[k] for k in d1)`
half of dict equality. -/
def Value.beqE : List (String × Value) → List (String × Value) → Bool
  | [], _ => true
  | (k, a) :: as, bs =>
      (match PyDict.get? bs k with
       | some b => Value.beq a b
       | Option.none => false) && Value.beqE as bs

end

/-- No key occurs twice (a Python dict cannot hold a key twice). -/
def Value.wfKeys : List String → Bool
  | [] => true
  | k :: ks => !(ks.contains k) && Value.wfKeys ks

mutual

/-- Python-representable values: every dict at every nesting level has
pairwise-distinct keys.  Every value that can flow in from Python code
satisfies this. -/
def Value.wf : Value → Bool
  | .none => true
  | .int _ => true
  | .str _ => true
  | .tuple vs => Value.wfL vs
  | .dict es => Value.wfKeys (es.map Prod.fst) && Value.wfE es

/-- `Value.wf` over tuple contents. -/
def Value.wfL : List Value → Bool
  | [] => true
  | v :: vs => Value.wf v && Value.wfL vs

/-- `Value.wf` over dict entries. -/
def Value.wfE : List (String × Value) → Bool
  | [] => true
  | (_, v) :: es => Value.wf v && Value.wfE es

end

/-! ## Signatures (`signature.py`, class `Signature`) -/

/-- The classification constants `Signature.ARGUMENT`,
`Signature.ARGUMENT_WITH_DEFAULT`, `Signature.VARARG`,
`Signature.KEYWORD_VARARG`, `Signature.KEYWORD_ONLY`. -/
inductive ArgType where
  | argument : ArgType
  | argumentWithDefault : ArgType
  | vararg : ArgType
  | keywordVararg : ArgType
  | keywordOnly : ArgType
deriving DecidableEq, Repr

/-- The data a `Signature` object stores after introspecting a callable:
positional argument names, their trailing defaults, the `*args` /
`**kwargs` collector names, and keyword-only arguments with their
defaults.  (The wrapped callable and annotations are not modelled; the
source's `__eq__` ignores them.) -/
structure Sig where
  args : List String
  defaults : List Value
  vararg : Option String
  kwonlyargs : List String
  kwonlydefaults : PyDict
  varkw : Option String
deriving Repr

/-- One element yielded by `Signature.__iter__`: a name, its type, and
its default (`None` when not applicable, as in the source's triples). -/
structure Param where
  name : String
  tp : ArgType
  dflt : Value
deriving Repr

/-- `Signature.__iter__`: arguments in declaration order, then the
vararg, then keyword-only arguments, then the keyword vararg.  The
cutoff `len(args) - len(defaults)` separates arguments without defaults
from those with defaults (`defaults[i - cutoff]`).  For a keyword-only
argument the source reads `kwonlydefaults[name]`; signatures whose
keyword-only arguments all carry defaults (the only ones the claims
use) make that lookup total. -/
def sigIter (s : Sig) : List Param :=
  let cutoff := s.args.length - s.defaults.length
  (s.args.enum.map fun p =>
    if p.1 < cutoff then ⟨p.2, .argument, Value.none⟩
    else ⟨p.2, .argumentWithDefault, (s.defaults.get? (p.1 - cutoff)).getD Value.none⟩)
  ++ (match s.vararg with
      | some va => [⟨va, .vararg, Value.none⟩]
      | Option.none => [])
  ++ (s.kwonlyargs.map fun n =>
       ⟨n, .keywordOnly, (s.kwonlydefaults.get? n).getD Value.none⟩)
  ++ (match s.varkw with
      | some vk => [⟨vk, .keywordVararg, Value.none⟩]
      | Option.none => [])

/-- All parameter names of a signature, in iteration order. -/
def paramNames (s : Sig) : List String :=
  (sigIter s).map Param.name

/-- Errors raised by `Signature.get_argument_type` / `get_default`. -/
inductive SigError where
  | noSuchArgument (name : String) : SigError
  | noDefaultValue (name : String) : SigError
deriving DecidableEq, Repr

/-- `Signature.get_argument_type`: positional arguments are classified
through the cutoff test `len(args) - index > len(defaults)`, then the
vararg, keyword vararg and keyword-only names are tried in that order;
an unknown name raises `NoSuchArgument`. -/
def getArgumentType (s : Sig) (name : String) : Except SigError ArgType :=
  match s.args.indexOf? name with
  | some idx =>
      if s.defaults.length < s.args.length - idx then .ok .argument
      else .ok .argumentWithDefault
  | Option.none =>
      if s.vararg = some name then .ok .vararg
      else if s.varkw = some name then .ok .keywordVararg
      else if name ∈ s.kwonlyargs then .ok .keywordOnly
      else .error (.noSuchArgument name)

/-- `Signature.get_default`: for an argument with a default the source
returns `defaults[len(args) - idx - 1]`; for a keyword-only argument it
returns `kwonlydefaults[name]`; everything else raises
`NoDefaultValue` (after `get_argument_type` may raise
`NoSuchArgument`). -/
def getDefault (s : Sig) (name : String) : Except SigError Value :=
  match getArgumentType s name with
  | .error e => .error e
  | .ok tp =>
      if tp = .argumentWithDefault then
        match s.args.indexOf? name with
        | some idx => .ok ((s.defaults.get? (s.args.length - idx - 1)).getD Value.none)
        | Option.none => .error (.noDefaultValue name)
      else if tp = .keywordOnly then
        .ok ((s.kwonlydefaults.get? name).getD Value.none)
      else .error (.noDefaultValue name)

/-! ## The binding algorithm (`AppliedSignature.__init__`) -/

/-- Errors raised while constructing an `AppliedSignature`
(`exceptions.py`): `MissingArgument(name)`, `DoubleArgumentValue(name)`,
`TooManyArguments`, `TooManyKeyWordArguments`. -/
inductive BindError where
  | missingArgument (name : String) : BindError
  | doubleArgumentValue (name : String) : BindError
  | tooManyArguments : BindError
  | tooManyKeyWordArguments : BindError
deriving DecidableEq, Repr

/-- The loop state of `AppliedSignature.__init__`: the `__values` dict
being built, the remaining positional and keyword arguments, the
`had_keyword` flag and the `passed_args` list. -/
structure BindState where
  values : PyDict
  args : List Value
  kwargs : PyDict
  hadKeyword : Bool
  passed : List String
deriving Repr

/-- `for k in kwargs: if k in passed_args: raise DoubleArgumentValue(k)`:
the first remaining keyword argument whose name was already passed. -/
def findDouble (kwargs : PyDict) (passed : List String) : Option String :=
  (kwargs.find? fun e => passed.contains e.1).map Prod.fst

/-- One iteration of the binding loop of `AppliedSignature.__init__`,
for the parameter `p`. -/
def bindStep (st : BindState) (p : Param) : Except BindError BindState :=
  let n := p.name
  match p.tp with
  | .argument | .argumentWithDefault =>
    if !st.hadKeyword then
      match st.args with
      | a :: rest =>
          .ok { st with values := st.values.insertKV n a, args := rest,
                        passed := st.passed ++ [n] }
      | [] =>
          match st.kwargs.get? n with
          | some v =>
              .ok { st with hadKeyword := true,
                            values := st.values.insertKV n v,
                            kwargs := st.kwargs.pop n,
                            passed := st.passed ++ [n] }
          | Option.none =>
              if p.tp = .argumentWithDefault then
                .ok { st with hadKeyword := true,
                              values := st.values.insertKV n p.dflt,
                              passed := st.passed ++ [n] }
              else .error (.missingArgument n)
    else
      match st.kwargs.get? n with
      | some v =>
          .ok { st with values := st.values.insertKV n v,
                        kwargs := st.kwargs.pop n,
                        passed := st.passed ++ [n] }
      | Option.none =>
          if p.tp = .argumentWithDefault then
            .ok { st with values := st.values.insertKV n p.dflt,
                          passed := st.passed ++ [n] }
          else .error (.missingArgument n)
  | .vararg =>
      .ok { st with values := st.values.insertKV n (.tuple st.args),
                    args := [], passed := st.passed ++ [n] }
  | .keywordOnly =>
      match st.kwargs.get? n with
      | some v =>
          .ok { st with values := st.values.insertKV n v,
                        kwargs := st.kwargs.pop n,
                        passed := st.passed ++ [n] }
      | Option.none =>
          .ok { st with values := st.values.insertKV n p.dflt,
                        passed := st.passed ++ [n] }
  | .keywordVararg =>
      match findDouble st.kwargs st.passed with
      | some k => .error (.doubleArgumentValue k)
      | Option.none =>
          .ok { st with values := st.values.insertKV n (.dict st.kwargs),
                        kwargs := [], passed := st.passed ++ [n] }

/-- The binding loop over the signature's parameters. -/
def bindLoop : List Param → BindState → Except BindError BindState
  | [], st => .ok st
  | p :: ps, st =>
      match bindStep st p with
      | .error e => .error e
      | .ok st' => bindLoop ps st'

/-- The checks after the loop of `AppliedSignature.__init__`: leftover
positional arguments raise `TooManyArguments`; leftover keyword
arguments raise `DoubleArgumentValue` when one repeats a passed
argument, else `TooManyKeyWordArguments`. -/
def finalCheck (st : BindState) : Except BindError PyDict :=
  if st.args.isEmpty then
    if st.kwargs.isEmpty then .ok st.values
    else
      match findDouble st.kwargs st.passed with
      | some k => .error (.doubleArgumentValue k)
      | Option.none => .error .tooManyKeyWordArguments
  else .error .tooManyArguments

/-- `AppliedSignature(signature, args, kwargs).__init__`, returning the
normalised `__values` dict (what `arguments()` exposes and
`clsutils.get_class_parameters` uses as the interning key). -/
def bindSig (s : Sig) (args : List Value) (kwargs : PyDict) :
    Except BindError PyDict :=
  match bindLoop (sigIter s) ⟨[], args, kwargs, false, []⟩ with
  | .error e => .error e
  | .ok st => finalCheck st

/-! ## Re-binding (`AppliedSignature.__call__`) -/

/-- `list(v)` for a bound `*args` value (always a tuple in a
well-formed applied signature). -/
def Value.asTupleList : Value → List Value
  | .tuple vs => vs
  | _ => []

/-- Iterating a bound `**kwargs` value (always a dict in a well-formed
applied signature). -/
def Value.asDictList : Value → PyDict
  | .dict es => es
  | _ => []

/-- The loop state of `AppliedSignature.__call__`: the `target_args` /
`target_kwargs` being built for the derived signature, the remaining
override arguments, `had_keyword` and `passed_args`. -/
structure RebindState where
  targetArgs : List Value
  targetKwargs : PyDict
  args : List Value
  kwargs : PyDict
  hadKeyword : Bool
  passed : List String
deriving Repr

/-- One iteration of the loop of `AppliedSignature.__call__` for the
parameter `p`, where `v` is the value bound in the original applied
signature (`self[n]`).  An omitted normal argument falls back to `v`;
an omitted `*args` slot re-uses the old tuple wholesale; the `**kwargs`
slot first copies the old dict and then adds the new entries on top. -/
def rebindStep (vals : PyDict) (st : RebindState) (p : Param) :
    Except BindError RebindState :=
  let n := p.name
  let v := (vals.get? n).getD Value.none
  match p.tp with
  | .argument | .argumentWithDefault =>
    if !st.hadKeyword then
      match st.args with
      | a :: rest =>
          .ok { st with targetArgs := st.targetArgs ++ [a], args := rest,
                        passed := st.passed ++ [n] }
      | [] =>
          match st.kwargs.get? n with
          | some w =>
              .ok { st with hadKeyword := true,
                            targetArgs := st.targetArgs ++ [w],
                            kwargs := st.kwargs.pop n,
                            passed := st.passed ++ [n] }
          | Option.none =>
              .ok { st with hadKeyword := true,
                            targetArgs := st.targetArgs ++ [v],
                            passed := st.passed ++ [n] }
    else
      match st.kwargs.get? n with
      | some w =>
          .ok { st with targetArgs := st.targetArgs ++ [w],
                        kwargs := st.kwargs.pop n,
                        passed := st.passed ++ [n] }
      | Option.none =>
          .ok { st with targetArgs := st.targetArgs ++ [v],
                        passed := st.passed ++ [n] }
  | .vararg =>
      if st.args.isEmpty then
        .ok { st with targetArgs := st.targetArgs ++ v.asTupleList,
                      passed := st.passed ++ [n] }
      else
        .ok { st with targetArgs := st.targetArgs ++ st.args, args := [],
                      passed := st.passed ++ [n] }
  | .keywordOnly =>
      match st.kwargs.get? n with
      | some w =>
          .ok { st with targetKwargs := st.targetKwargs.insertKV n w,
                        kwargs := st.kwargs.pop n,
                        passed := st.passed ++ [n] }
      | Option.none =>
          .ok { st with targetKwargs := st.targetKwargs.insertKV n v,
                        passed := st.passed ++ [n] }
  | .keywordVararg =>
      let tk := v.asDictList.foldl (fun acc e => acc.insertKV e.1 e.2)
        st.targetKwargs
      match findDouble st.kwargs st.passed with
      | some k => .error (.doubleArgumentValue k)
      | Option.none =>
          .ok { st with targetKwargs :=
                          st.kwargs.foldl (fun acc e => acc.insertKV e.1 e.2) tk,
                        kwargs := [], passed := st.passed ++ [n] }

/-- The loop of `AppliedSignature.__call__`. -/
def rebindLoop (vals : PyDict) :
    List Param → RebindState → Except BindError RebindState
  | [], st => .ok st
  | p :: ps, st =>
      match rebindStep vals st p with
      | .error e => .error e
      | .ok st' => rebindLoop vals ps st'

/-- `AppliedSignature.__call__`: rebuild `target_args` /
`target_kwargs` from the existing values and the overrides, run the
same leftover checks as `__init__`, and bind the signature again. -/
def appliedCall (s : Sig) (vals : PyDict) (args : List Value)
    (kwargs : PyDict) : Except BindError PyDict :=
  match rebindLoop vals (sigIter s) ⟨[], [], args, kwargs, false, []⟩ with
  | .error e => .error e
  | .ok st =>
      if st.args.isEmpty then
        if st.kwargs.isEmpty then bindSig s st.targetArgs st.targetKwargs
        else
          match findDouble st.kwargs st.passed with
          | some k => .error (.doubleArgumentValue k)
          | Option.none => .error .tooManyKeyWordArguments
      else .error .tooManyArguments

/-! ## String representation (`AppliedSignature.__str__`,
`CaseClass.__repr__`) -/

mutual

/-- Python `repr` on modelled values: `None`, decimal integers,
single-quoted strings, tuples (with the trailing comma for a
one-element tuple) and dicts. -/
def pyRepr : Value → String
  | .none => "None"
  | .int n => toString n
  | .str s => "\x27" ++ s ++ "\x27"
  | .tuple [] => "()"
  | .tuple [v] => "(" ++ pyRepr v ++ ",)"
  | .tuple vs => "(" ++ pyReprL vs ++ ")"
  | .dict [] => "\x7b\x7d"
  | .dict es => "\x7b" ++ pyReprE es ++ "\x7d"
termination_by v => sizeOf v

/-- Comma-separated `repr`s of tuple elements. -/
def pyReprL : List Value → String
  | [] => ""
  | [v] => pyRepr v
  | v :: vs => pyRepr v ++ ", " ++ pyReprL vs
termination_by l => sizeOf l

/-- Comma-separated `repr(key): repr(value)` renderings of dict
entries. -/
def pyReprE : List (String × Value) → String
  | [] => ""
  | [(k, v)] => "\x27" ++ k ++ "\x27: " ++ pyRepr v
  | (k, v) :: es => "\x27" ++ k ++ "\x27: " ++ pyRepr v ++ ", " ++ pyReprE es
termination_by l => sizeOf l

end

/-- The rendering of one parameter inside `AppliedSignature.__str__`:
a bare `repr(v)` for a plain argument, `name=repr(v)` for defaulted and
keyword-only arguments, `*name=repr(v)` for the vararg and
`**name=repr(v)` for the keyword vararg. -/
def strOfParam (vals : PyDict) (p : Param) : String :=
  let v := (vals.get? p.name).getD Value.none
  match p.tp with
  | .argument => pyRepr v
  | .argumentWithDefault => p.name ++ "=" ++ pyRepr v
  | .keywordOnly => p.name ++ "=" ++ pyRepr v
  | .vararg => "*" ++ p.name ++ "=" ++ pyRepr v
  | .keywordVararg => "**" ++ p.name ++ "=" ++ pyRepr v

/-- `AppliedSignature.__str__`: the parameter renderings joined by
`", "` in signature order. -/
def strOfApplied (s : Sig) (vals : PyDict) : String :=
  String.intercalate ", " ((sigIter s).map (strOfParam vals))

/-- `CaseClass.__repr__`: class name followed by the parenthesised
parameters (`"%s(%s)" % (self.__name, self.case_params)`). -/
def reprOfInstance (clsName : String) (s : Sig) (vals : PyDict) : String :=
  clsName ++ "(" ++ strOfApplied s vals ++ ")"

/-! ## Case classes, the metaclass and interning (`case_class.py`,
`clsutils.py`) -/

/-- The four classes of `case_class.py` that the metaclass compares
against by identity, plus user-defined classes. -/
inductive BaseKind where
  | caseClassBase : BaseKind        -- `CaseClass`
  | abstractBase : BaseKind         -- `AbstractCaseClass`
  | inheritableBase : BaseKind      -- `InheritableCaseClass`
  | hiddenBase : BaseKind           -- `_CaseClass`
deriving DecidableEq, Repr

/-- A class as the metaclass sees it: one of the distinguished base
classes, or a user class with its list of direct bases. -/
inductive PyClass where
  | base (k : BaseKind) : PyClass
  | user (name : String) (bases : List PyClass) : PyClass

/-- Identity test against `CaseClass`. -/
def PyClass.isCaseClassBase : PyClass → Bool
  | .base .caseClassBase => true
  | _ => false

/-- Identity test against `AbstractCaseClass`. -/
def PyClass.isAbstractBase : PyClass → Bool
  | .base .abstractBase => true
  | _ => false

/-- Identity test against `InheritableCaseClass`. -/
def PyClass.isInheritableBase : PyClass → Bool
  | .base .inheritableBase => true
  | _ => false

/-- Identity test against `_CaseClass`. -/
def PyClass.isHiddenBase : PyClass → Bool
  | .base .hiddenBase => true
  | _ => false

/-- `cls.__bases__` as declared in `case_class.py`: `CaseClass`
extends `_CaseClass`; `AbstractCaseClass` and `InheritableCaseClass`
extend `(CaseClass, _CaseClass)`. -/
def PyClass.basesOf : PyClass → List PyClass
  | .base .caseClassBase => [.base .hiddenBase]
  | .base .abstractBase => [.base .caseClassBase, .base .hiddenBase]
  | .base .inheritableBase => [.base .caseClassBase, .base .hiddenBase]
  | .base .hiddenBase => []
  | .user _ bs => bs

/-- `CaseClassMeta.is_concrete_caseclass`:
`cls != AbstractCaseClass and CaseClass in cls.__bases__`. -/
def isConcreteCaseClass (cls : PyClass) : Bool :=
  !cls.isAbstractBase && cls.basesOf.any PyClass.isCaseClassBase

/-- `CaseClassMeta.inherits_from_case_class`: inheriting directly from
`InheritableCaseClass` short-circuits to `False`; otherwise any
concrete case class among the bases triggers the check. -/
def inheritsFromCaseClass (bases : List PyClass) : Bool :=
  if bases.any PyClass.isInheritableBase then false
  else bases.any isConcreteCaseClass

/-- Errors of the structural class rules (`exceptions.py`). -/
inductive ClassError where
  | noCaseToCaseInheritance (name : String) : ClassError
deriving DecidableEq, Repr

/-- `CaseClassMeta.__new__`: at class-definition time, a class whose
bases do not include `_CaseClass` but do inherit from a concrete
non-inheritable case class raises `NoCaseToCaseInheritanceException`;
otherwise the class is created normally. -/
def mkClass (name : String) (bases : List PyClass) :
    Except ClassError PyClass :=
  if !(bases.any PyClass.isHiddenBase) && inheritsFromCaseClass bases then
    .error (.noCaseToCaseInheritance name)
  else .ok (.user name bases)

/-- Equality used by `ckey.index(key)` on interning keys (Python `==`
on the normalised parameter dicts). -/
def keyBeq (k k' : PyDict) : Bool :=
  Value.beq (.dict k) (.dict k')

/-- `ckey.index(key)`: index of the first stored key equal to the
computed key, or `None` (`ValueError` in the source). -/
def findKeyIdx : List PyDict → PyDict → Option Nat
  | [], _ => Option.none
  | k' :: rest, k =>
      if keyBeq k' k then some 0 else (findKeyIdx rest k).map (· + 1)

/-- `CaseClassMeta.__call__` for a concrete case class (the abstract /
base-marker guards having passed): compute the interning key
`clsutils.get_class_parameters(cls, *args, **kwargs)` — that is, the
normalised `arguments()` dict of the applied `__init__` signature —
and return a cached instance when an equal key is registered, else
construct a new instance, append the key and return it.  The result is
`(index of the instance in the per-class registry, new registry,
whether user construction ran)`; instances are identified by their
registry index since `instance_values` maps indices to instances and
entries are never replaced. -/
def metaCall (reg : List PyDict) (s : Sig) (args : List Value)
    (kwargs : PyDict) : Except BindError (Nat × List PyDict × Bool) :=
  match bindSig s args kwargs with
  | .error e => .error e
  | .ok key =>
      match findKeyIdx reg key with
      | some i => .ok (i, reg, false)
      | Option.none => .ok (reg.length, reg ++ [key], true)

/-! ## The broken hash path (`CaseClassMeta.get_hash`,
`CaseClass.__hash__`) -/

/-- Python-level failures outside the package's own taxonomy. -/
inductive PyError where
  | attributeError (name : String) : PyError
deriving DecidableEq, Repr

/-- The attributes a `CaseClass` instance actually has: the mangled
slots set in `CaseClass.__new__` (`__name`, `__sig`, `__applied`) plus
the class-level methods and the `case_params` property.  Neither
`case_args` nor `case_kwargs` is among them. -/
def caseClassAttrs : List String :=
  ["_CaseClass__name", "_CaseClass__sig", "_CaseClass__applied",
   "__new__", "__hash__", "copy", "case_params", "__repr__"]

/-- `CaseClassMeta.get_hash` on a `CaseClass` instance: after the
isinstance guard it evaluates `key = (cc.case_args, cc.case_kwargs)`;
attribute lookup on the instance is over `caseClassAttrs`, so the very
first access raises `AttributeError`.  (`CaseClass.__hash__` simply
returns `CaseClassMeta.get_hash(self)`.)  The remaining lines —
`ckey.index(key)` against dict-valued keys and
`hash((CaseClassMeta, ckey, idx))` on the list `ckey` — are modelled
as unreachable. -/
def caseClassGetHash (attrs : List String) : Except PyError Int :=
  if "case_args" ∈ attrs then
    if "case_kwargs" ∈ attrs then .ok 0
    else .error (.attributeError "case_kwargs")
  else .error (.attributeError "case_args")

/-! ## Extractor combinators (`extractor.py`) -/

/-- The extractor tree: `_` (wildcard), `V` (variable bind), `L`
(literal), `T` (type test), `C` (condition, with an opaque function
id), `And` (conjunction) and `A` (constructor application). -/
inductive Extr where
  | wildcard : Extr
  | var (name : String) : Extr
  | lit (v : Value) : Extr
  | typeTest (tp : String) : Extr
  | cond (fid : Nat) : Extr
  | conj (ps : List Extr) : Extr
  | app (head : Extr) (args : List Extr) (kwargs : List (String × Extr)) : Extr

/-- The kinds of object `Extractor.lift` distinguishes: an existing
extractor, the class `_` itself, a type, a callable, or any other
literal. -/
inductive Liftable where
  | ext (e : Extr) : Liftable
  | underscoreClass : Liftable
  | typeVal (tp : String) : Liftable
  | callableVal (fid : Nat) : Liftable
  | litVal (v : Value) : Liftable

/-- `Extractor.lift`. -/
def Extr.lift : Liftable → Extr
  | .ext e => e
  | .underscoreClass => .wildcard
  | .typeVal t => .typeTest t
  | .callableVal f => .cond f
  | .litVal v => .lit v

/-- `And.__init__`: lifts each pattern and stores the tuple.  It does
not flatten nested conjunctions. -/
def andCtor (ps : List Liftable) : Extr :=
  .conj (ps.map Extr.lift)

/-- `Extractor.__and__`: when the left operand is already an `And`,
rebuild it with the right operand appended
(`And(*(self.patterns + (other,)))`); otherwise `And(self, other)`. -/
def andOp (a : Extr) (b : Liftable) : Extr :=
  match a with
  | .conj ps => andCtor (ps.map Liftable.ext ++ [b])
  | _ => andCtor [.ext a, b]

/-- Whether an extractor is a conjunction. -/
def Extr.isConj : Extr → Bool
  | .conj _ => true
  | _ => false

/-- Whether a conjunction directly contains another conjunction as an
immediate child (the invariant claimed by the spec). -/
def hasConjChild : Extr → Bool
  | .conj ps => ps.any Extr.isConj
  | _ => false

/-! ## Canonical shape of an applied signature's values -/

/-- The `__values` entry contributed by the vararg slot, if present. -/
def varargEntries : Option String → List Value → PyDict
  | some va, ts => [(va, .tuple ts)]
  | Option.none, _ => []

/-- The `__values` entry contributed by the keyword-vararg slot, if
present. -/
def varkwEntries : Option String → PyDict → PyDict
  | some vk, d => [(vk, .dict d)]
  | Option.none, _ => []

/-- The canonical shape of the `__values` dict of an
`AppliedSignature`: one value per positional argument in order, the
vararg tuple, one value per keyword-only argument, and the
keyword-vararg dict. -/
def canonicalVals (s : Sig) (pv ts : List Value) (wv : List Value)
    (d : PyDict) : PyDict :=
  s.args.zip pv ++ varargEntries s.vararg ts
    ++ s.kwonlyargs.zip wv ++ varkwEntries s.varkw d

/-- The data-model invariant of `AppliedSignature.__values` (every
parameter of the owning signature bound exactly once, varargs bound to
a tuple, keyword varargs bound to a dict of names foreign to the
signature).  Every successful run of the binding algorithm produces a
dict of this shape. -/
def GoodVals (s : Sig) (vals : PyDict) : Prop :=
  ∃ (pv ts wv : List Value) (d : PyDict),
    pv.length = s.args.length ∧
    wv.length = s.kwonlyargs.length ∧
    (s.vararg = Option.none → ts = []) ∧
    (s.varkw = Option.none → d = []) ∧
    (∀ k ∈ PyDict.keys d, k ∉ s.args ∧ s.vararg ≠ some k ∧ k ∉ s.kwonlyargs) ∧
    (PyDict.keys d).Nodup ∧
    vals = canonicalVals s pv ts wv d

/-- Merging new keyword-vararg entries on top of the previous dict
(the `for k in v: target_kwargs[k] = v[k]` / `target_kwargs[k] =
kwargs[k]` loops of `AppliedSignature.__call__`). -/
def mergeKV (d dnew : PyDict) : PyDict :=
  dnew.foldl (fun acc e => acc.insertKV e.1 e.2) d

/-! ## Concrete signatures used by the testable properties -/

/-- The signature of `def f(a, b=1, *c, **d)`. -/
def sigAB : Sig := ⟨["a", "b"], [.int 1], some "c", [], [], some "d"⟩

/-- The signature of `def f(a)`. -/
def sigA : Sig := ⟨["a"], [], Option.none, [], [], Option.none⟩

/-- The signature of `Test.__init__(self, x, y=1, *args, **kwargs)`
after the receiver is skipped. -/
def sigTest : Sig :=
  ⟨["x", "y"], [.int 1], some "args", [], [], some "kwargs"⟩

/-- The signature of `def f(a=1, b=2)`: two defaulted arguments. -/
def sigTwoDefaults : Sig :=
  ⟨["a", "b"], [.int 1, .int 2], Option.none, [], [], Option.none⟩

/-- The signature of `def f(**d)`: only a keyword vararg. -/
def sigOnlyKw : Sig := ⟨[], [], Option.none, [], [], some "d"⟩

/-! ## Spec recursions describing the rebind loop segment by segment -/

/-- What the loop of `AppliedSignature.__call__` appends to
`target_args` while traversing the positional parameters: positional
overrides first, then (once they run out) keyword overrides or the
previous bound values. -/
def posTVals (vals : PyDict) : List String → List Value → PyDict → List Value
  | [], _, _ => []
  | _ :: ns, a :: oargs, okw => a :: posTVals vals ns oargs okw
  | n :: ns, [], okw =>
      (match PyDict.get? okw n with
       | some w => w
       | Option.none => (PyDict.get? vals n).getD Value.none)
        :: posTVals vals ns [] (okw.pop n)

/-- The keyword overrides left after the positional parameters have
been traversed (consumed entries are popped once the positional
overrides have run out). -/
def posRemKw : List String → List Value → PyDict → PyDict
  | [], _, okw => okw
  | _ :: ns, _ :: oargs, okw => posRemKw ns oargs okw
  | n :: ns, [], okw => posRemKw ns [] (okw.pop n)

/-- What the loop of `AppliedSignature.__call__` inserts into
`target_kwargs` for the keyword-only parameters: the keyword override
when present, else the previous bound value. -/
def kwTVals (vals : PyDict) : List String → PyDict → List Value
  | [], _ => []
  | n :: ns, okw =>
      (match PyDict.get? okw n with
       | some w => w
       | Option.none => (PyDict.get? vals n).getD Value.none)
        :: kwTVals vals ns (okw.pop n)

/-- The keyword overrides left after the keyword-only parameters have
been traversed. -/
def kwRemKw : List String → PyDict → PyDict
  | [], okw => okw
  | n :: ns, okw => kwRemKw ns (okw.pop n)

/-! ## The four segments of `Signature.__iter__` -/

/-- The positional parameters (required, then defaulted) produced by the
first loop of `Signature.__iter__`. -/
def posParams (s : Sig) : List Param :=
  s.args.enum.map fun p =>
    if p.1 < s.args.length - s.defaults.length then
      ⟨p.2, .argument, Value.none⟩
    else
      ⟨p.2, .argumentWithDefault,
        (s.defaults.get? (p.1 - (s.args.length - s.defaults.length))).getD Value.none⟩

/-- The vararg parameter produced by `Signature.__iter__`, if any. -/
def varargParams (s : Sig) : List Param :=
  match s.vararg with
  | some va => [⟨va, .vararg, Value.none⟩]
  | Option.none => []

/-- The keyword-only parameters produced by `Signature.__iter__`. -/
def kwonlyParams (s : Sig) : List Param :=
  s.kwonlyargs.map fun n =>
    ⟨n, .keywordOnly, (s.kwonlydefaults.get? n).getD Value.none⟩

/-- The keyword-vararg parameter produced by `Signature.__iter__`, if
any. -/
def varkwParams (s : Sig) : List Param :=
  match s.varkw with
  | some vk => [⟨vk, .keywordVararg, Value.none⟩]
  | Option.none => []

/-! ## Dictionary lemmas -/

namespace PyDict

theorem get?_append_left {l₁ : PyDict} {k : String} {v : Value}
    (l₂ : PyDict) (h : get? l₁ k = some v) : get? (l₁ ++ l₂) k = some v := by
  induction l₁ with
  | nil => simp [get?] at h
  | cons e rest ih =>
      obtain ⟨k', w⟩ := e
      by_cases hk : k' = k <;> simp_all [get?]

theorem get?_append_right {l₁ : PyDict} {k : String}
    (l₂ : PyDict) (h : k ∉ keys l₁) : get? (l₁ ++ l₂) k = get? l₂ k := by
  induction l₁ with
  | nil => simp
  | cons e rest ih =>
      obtain ⟨k', w⟩ := e
      simp only [keys, List.map_cons, List.mem_cons] at h
      push_neg at h
      simpa [get?, Ne.symm h.1] using ih (by simpa [keys] using h.2)

theorem get?_eq_none {l : PyDict} {k : String} :
    get? l k = Option.none ↔ k ∉ keys l := by
  induction l with
  | nil => simp [get?, keys]
  | cons e rest ih =>
      obtain ⟨k', w⟩ := e
      by_cases hk : k' = k <;> simp_all [get?, keys, eq_comm]

theorem get?_isSome_of_mem {l : PyDict} {k : String} (h : k ∈ keys l) :
    ∃ v, get? l k = some v := by
  cases hv : get? l k with
  | none => exact absurd (get?_eq_none.1 hv) (by simpa using h)
  | some v => exact ⟨v, rfl⟩

theorem insertKV_of_not_mem {l : PyDict} {k : String} (v : Value)
    (h : k ∉ keys l) : insertKV l k v = l ++ [(k, v)] := by
  induction l with
  | nil => rfl
  | cons e rest ih =>
      obtain ⟨k', w⟩ := e
      simp only [keys, List.map_cons, List.mem_cons] at h
      push_neg at h
      simp [insertKV, Ne.symm h.1, ih (by simpa [keys] using h.2)]

theorem keys_insertKV (l : PyDict) (k : String) (v : Value) :
    keys (insertKV l k v) = if k ∈ keys l then keys l else keys l ++ [k] := by
  induction l with
  | nil => simp [insertKV, keys]
  | cons e rest ih =>
      obtain ⟨k', w⟩ := e
      by_cases hk : k' = k
      · subst hk; simp [insertKV, keys]
      · have hkk : ¬(k = k') := fun hh => hk hh.symm
        simp only [insertKV, if_neg hk, keys, List.map_cons] at *
        rw [ih]
        by_cases hm : k ∈ List.map Prod.fst rest <;> simp [hm, hkk]

theorem keys_nodup_insertKV {l : PyDict} (k : String) (v : Value)
    (h : (keys l).Nodup) : (keys (insertKV l k v)).Nodup := by
  rw [keys_insertKV]
  by_cases hm : k ∈ keys l <;> simp_all [List.nodup_append]

theorem pop_sublist (l : PyDict) (k : String) : (pop l k).Sublist l := by
  induction l with
  | nil => simp [pop]
  | cons e rest ih =>
      obtain ⟨k', w⟩ := e
      by_cases hk : k' = k
      · subst hk
        simp only [pop, if_pos rfl]
        exact List.sublist_cons_self _ _
      · simp only [pop, if_neg hk]
        exact ih.cons₂ _

theorem pop_of_not_mem {l : PyDict} {k : String} (h : k ∉ keys l) :
    pop l k = l := by
  induction l with
  | nil => rfl
  | cons e rest ih =>
      obtain ⟨k', w⟩ := e
      simp only [keys, List.map_cons, List.mem_cons] at h
      push_neg at h
      simp [pop, Ne.symm h.1, ih (by simpa [keys] using h.2)]

theorem pop_get?_ne {l : PyDict} {k n : String} (h : k ≠ n) :
    get? (pop l n) k = get? l k := by
  induction l with
  | nil => rfl
  | cons e rest ih =>
      obtain ⟨k', w⟩ := e
      by_cases hk : k' = n
      · subst hk
        simp [pop, get?, Ne.symm h]
      · by_cases hK : k' = k <;> simp [pop, get?, hk, hK, h, ih]

theorem keys_append (l₁ l₂ : PyDict) :
    keys (l₁ ++ l₂) = keys l₁ ++ keys l₂ := by
  simp [keys]

theorem keys_zip (ns : List String) (vs : List Value)
    (h : ns.length ≤ vs.length) : keys (ns.zip vs) = ns := by
  simpa [keys] using List.map_fst_zip ns vs h

end PyDict

/-! ## C3: the four binding-failure exceptions -/

/-- C3: for the signature `(a)`, applying `()` raises
`MissingArgument("a")`; applying `(1, a=1)` raises
`DoubleArgumentValue("a")`; applying `(1, 2)` raises
`TooManyArguments`; applying `(a=1, b=2)` raises
`TooManyKeyWordArguments`. -/
theorem bind_error_taxonomy :
    bindSig sigA [] [] = .error (.missingArgument "a") ∧
    bindSig sigA [.int 1] [("a", .int 1)] =
      .error (.doubleArgumentValue "a") ∧
    bindSig sigA [.int 1, .int 2] [] = .error .tooManyArguments ∧
    bindSig sigA [] [("a", .int 1), ("b", .int 2)] =
      .error .tooManyKeyWordArguments :=
  ⟨rfl, rfl, rfl, rfl⟩

/-! ## C8: the canonical representation -/

/-- C8: for `Test(x, y=1, *args, **kwargs)` constructed as
`Test(1, 2, key='value')`, the representation is
`Test(1, y=2, *args=(), **kwargs={'key': 'value'})`: a bare repr for
the plain argument, `name=` for the defaulted one, `*name=` for the
vararg tuple and `**name=` for the keyword-vararg dict, joined by
`", "` in signature order. -/
theorem repr_canonical :
    bindSig sigTest [.int 1, .int 2] [("key", .str "value")] =
      .ok [("x", .int 1), ("y", .int 2), ("args", .tuple []),
           ("kwargs", .dict [("key", .str "value")])] ∧
    reprOfInstance "Test" sigTest
        [("x", .int 1), ("y", .int 2), ("args", .tuple []),
         ("kwargs", .dict [("key", .str "value")])] =
      "Test(1, y=2, *args=(), **kwargs=\x7b\x27key\x27: \x27value\x27\x7d)" := by
  refine ⟨rfl, ?_⟩
  simp [reprOfInstance, strOfApplied, sigTest, sigIter, strOfParam, PyDict.get?,
    pyRepr, pyReprL, pyReprE, String.intercalate, List.enum, List.enumFrom,
    String.intercalate.go]
  rfl

/-! ## C9: `get_default` misindexes the defaults list -/

/-- C9 (code bug): for `def f(a=1, b=2)` the iteration protocol
records the declared defaults `a=1`, `b=2`, but `get_default` reads
`defaults[len(args) - idx - 1]` and thus returns the *other*
argument's default: `get_default("a")` yields `2` and
`get_default("b")` yields `1`. -/
theorem get_default_reversed :
    (sigIter sigTwoDefaults).map (fun p => (p.name, p.dflt)) =
        [("a", .int 1), ("b", .int 2)] ∧
    getDefault sigTwoDefaults "a" = .ok (.int 2) ∧
    getDefault sigTwoDefaults "b" = .ok (.int 1) :=
  ⟨rfl, rfl, rfl⟩

/-! ## C4: the hash path is broken -/

/-- C4 (code bug): `CaseClass.__hash__` delegates to
`CaseClassMeta.get_hash`, which evaluates `cc.case_args` — an
attribute no `CaseClass` instance defines — so hashing any interned
instance raises `AttributeError` instead of returning a hash. -/
theorem get_hash_attribute_error :
    caseClassGetHash caseClassAttrs = .error (.attributeError "case_args") :=
  rfl

/-! ## C10: conjunction flattening -/

/-- C10 (counterexample): building `_ & (_ & _)` through the public
`&` combinator yields a conjunction whose second immediate child is
itself a conjunction — the claimed invariant fails as soon as the
*right* operand is a conjunction, because only the left operand is
flattened. -/
theorem conj_child_counterexample :
    andOp .wildcard (.ext (andOp .wildcard (.ext .wildcard))) =
        .conj [.wildcard, .conj [.wildcard, .wildcard]] ∧
    hasConjChild
        (andOp .wildcard (.ext (andOp .wildcard (.ext .wildcard)))) = true :=
  ⟨rfl, rfl⟩

/-- `lift` is the identity on objects that are already extractors. -/
theorem lift_ext (e : Extr) : Extr.lift (.ext e) = e := rfl

/-- An extractor that is not a conjunction has no conjunction child. -/
theorem hasConjChild_of_not_conj {e : Extr} (h : e.isConj = false) :
    hasConjChild e = false := by
  cases e <;> simp_all [Extr.isConj, hasConjChild]

/-- Folding `&` onto an existing conjunction of non-conjunctions with
non-conjunction operands keeps the pattern list flat. -/
theorem foldl_andOp_conj (qs : List Extr) (bs : List Liftable)
    (hq : ∀ q ∈ qs, q.isConj = false)
    (hb : ∀ b ∈ bs, (Extr.lift b).isConj = false) :
    bs.foldl andOp (.conj qs) = .conj (qs ++ bs.map Extr.lift) := by
  induction bs generalizing qs with
  | nil => simp
  | cons b bs ih =>
      have hstep : andOp (.conj qs) b = .conj (qs ++ [Extr.lift b]) := by
        simp [andOp, andCtor, List.map_map, Function.comp_def, lift_ext]
      simp only [List.foldl_cons, hstep]
      rw [ih (qs ++ [Extr.lift b])
          (by intro q hqmem
              rcases List.mem_append.1 hqmem with h | h
              · exact hq q h
              · simp only [List.mem_singleton] at h
                subst h
                exact hb b (List.mem_cons_self b bs))
          (fun x hx => hb x (List.mem_cons_of_mem b hx))]
      simp

/-- C10 (amended): `&` flattens only its left operand — when the left
side is already a conjunction, `A & B` appends `B` to its pattern
list; consequently left-associated `&` chains over non-conjunction
extractors produce a flat conjunction with no conjunction child.  (The
`And` constructor itself, and a conjunction appearing as the right
operand, are not flattened — see the counterexample.) -/
theorem conj_flatten_left :
    (∀ (ps : List Extr) (b : Liftable),
       andOp (.conj ps) b = .conj (ps ++ [Extr.lift b])) ∧
    (∀ (e : Extr) (bs : List Liftable), e.isConj = false →
       (∀ b ∈ bs, (Extr.lift b).isConj = false) →
       hasConjChild (bs.foldl andOp e) = false) := by
  constructor
  · intro ps b
    simp [andOp, andCtor, List.map_map, Function.comp_def, lift_ext]
  · intro e bs he hb
    cases bs with
    | nil => exact hasConjChild_of_not_conj he
    | cons b bs =>
        have hstep : andOp e b = .conj [e, Extr.lift b] := by
          cases e <;> simp_all [andOp, andCtor, Extr.lift, Extr.isConj]
        have hrest := foldl_andOp_conj [e, Extr.lift b] bs
          (by intro q hqmem
              simp only [List.mem_cons, List.not_mem_nil, or_false] at hqmem
              rcases hqmem with h | h
              · subst h; exact he
              · subst h; exact hb b (List.mem_cons_self b bs))
          (fun x hx => hb x (List.mem_cons_of_mem b hx))
        simp only [List.foldl_cons, hstep, hrest, hasConjChild]
        rw [List.any_eq_false]
        intro q hqmem
        simp only [List.cons_append, List.nil_append, List.mem_cons,
          List.mem_map] at hqmem
        rcases hqmem with h | h | ⟨x, hx, hxe⟩
        · subst h; simp [he]
        · subst h; simp [hb b (List.mem_cons_self b bs)]
        · subst hxe; simp [hb x (List.mem_cons_of_mem b hx)]

/-- Witness for the amended C10 statement at concrete inputs. -/
theorem conj_flatten_left_witness :
    andOp (.conj [.wildcard]) (.ext (.var "x")) =
        .conj [.wildcard, .var "x"] ∧
    hasConjChild ([Liftable.ext .wildcard].foldl andOp .wildcard) = false :=
  ⟨conj_flatten_left.1 [.wildcard] (.ext (.var "x")),
   conj_flatten_left.2 .wildcard [.ext .wildcard] rfl
     (by intro b hb
         simp only [List.mem_singleton] at hb
         subst hb
         rfl)⟩

/-! ## C7: no case-to-case inheritance -/

/-- C7: defining a class whose bases include a concrete
(non-Inheritable) case class — and do not include `_CaseClass` or
`InheritableCaseClass` — raises `NoCaseToCaseInheritanceException`
inside `CaseClassMeta.__new__`, i.e. at class-definition time, before
any instance exists; a base declared over `InheritableCaseClass` is
not a concrete case class in the sense of the check, so subclassing
it succeeds. -/
theorem no_case_to_case_inheritance
    (name : String) (bases : List PyClass) (c : PyClass)
    (hc : isConcreteCaseClass c = true) (hmem : c ∈ bases)
    (hhid : bases.any PyClass.isHiddenBase = false)
    (hinh : bases.any PyClass.isInheritableBase = false) :
    mkClass name bases = .error (.noCaseToCaseInheritance name) ∧
    ∀ (sub bname : String),
      mkClass sub [.user bname [.base .inheritableBase]] =
        .ok (.user sub [.user bname [.base .inheritableBase]]) := by
  constructor
  · have hconc : bases.any isConcreteCaseClass = true :=
      List.any_eq_true.2 ⟨c, hmem, hc⟩
    simp [mkClass, inheritsFromCaseClass, hhid, hinh, hconc]
  · intro sub bname
    rfl

/-- Witness: `class Test(CaseClass)` then `class S(Test)` fails, while
`class B(InheritableCaseClass)` then `class S2(B)` succeeds. -/
theorem no_case_to_case_inheritance_witness :
    mkClass "S" [.user "Test" [.base .caseClassBase]] =
        .error (.noCaseToCaseInheritance "S") ∧
    mkClass "S2" [.user "B" [.base .inheritableBase]] =
        .ok (.user "S2" [.user "B" [.base .inheritableBase]]) :=
  ⟨(no_case_to_case_inheritance "S" [.user "Test" [.base .caseClassBase]]
      (.user "Test" [.base .caseClassBase]) rfl (List.mem_singleton.2 rfl)
      rfl rfl).1,
   (no_case_to_case_inheritance "S" [.user "Test" [.base .caseClassBase]]
      (.user "Test" [.base .caseClassBase]) rfl (List.mem_singleton.2 rfl)
      rfl rfl).2 "S2" "B"⟩

/-! ## C1: interning -/

theorem PyDict.mem_of_get? : ∀ {l : PyDict} {k : String} {v : Value},
    PyDict.get? l k = some v → (k, v) ∈ l := by
  intro l
  induction l with
  | nil => intro k v h; simp [PyDict.get?] at h
  | cons e rest ih =>
      intro k v h
      obtain ⟨k0, w⟩ := e
      by_cases hk : k0 = k
      · subst hk
        simp only [PyDict.get?, if_pos rfl] at h
        injection h with h
        subst h
        exact List.mem_cons_self _ _
      · simp only [PyDict.get?, if_neg hk] at h
        exact List.mem_cons_of_mem _ (ih h)

theorem Value.wfKeys_nodup : ∀ ks : List String,
    Value.wfKeys ks = true → ks.Nodup := by
  intro ks
  induction ks with
  | nil => intro _; exact List.nodup_nil
  | cons k ks ih =>
      intro h
      simp only [Value.wfKeys, Bool.and_eq_true, Bool.not_eq_true] at h
      refine List.nodup_cons.2 ⟨?_, ih h.2⟩
      intro hm
      have hc := List.elem_eq_true_of_mem hm
      have hf : ks.contains k = false := by simpa using h.1
      have hf2 : List.elem k ks = false := hf
      rw [hc] at hf2
      exact Bool.noConfusion hf2

theorem Value.wfL_mem : ∀ vs : List Value, Value.wfL vs = true →
    ∀ v ∈ vs, Value.wf v = true := by
  intro vs
  induction vs with
  | nil => intro _ v hv; simp at hv
  | cons u us ih =>
      intro h v hv
      simp only [Value.wfL, Bool.and_eq_true] at h
      rcases List.mem_cons.1 hv with hh | hh
      · subst hh; exact h.1
      · exact ih h.2 v hh

theorem Value.wfE_mem : ∀ es : List (String × Value), Value.wfE es = true →
    ∀ (k : String) (v : Value), (k, v) ∈ es → Value.wf v = true := by
  intro es
  induction es with
  | nil => intro _ k v hv; simp at hv
  | cons e es ih =>
      intro h k v hv
      obtain ⟨k0, w⟩ := e
      simp only [Value.wfE, Bool.and_eq_true] at h
      rcases List.mem_cons.1 hv with hh | hh
      · injection hh with hh1 hh2; subst hh2; exact h.1
      · exact ih h.2 k v hh

theorem Value.beqE_mem : ∀ fs gs : List (String × Value),
    Value.beqE fs gs = true → ∀ (k : String) (y : Value), (k, y) ∈ fs →
    ∃ z, PyDict.get? gs k = some z ∧ Value.beq y z = true := by
  intro fs
  induction fs with
  | nil => intro gs _ k y hy; simp at hy
  | cons e fs ih =>
      intro gs h k y hy
      obtain ⟨k0, y0⟩ := e
      simp only [Value.beqE, Bool.and_eq_true] at h
      rcases List.mem_cons.1 hy with hh | hh
      · injection hh with hh1 hh2
        subst hh1; subst hh2
        obtain ⟨hfind, _⟩ := h
        cases hg : PyDict.get? gs k with
        | none => rw [hg] at hfind; exact Bool.noConfusion hfind
        | some z =>
            rw [hg] at hfind
            exact ⟨z, rfl, hfind⟩
      · exact ih gs h.2 k y hh

/-- Under the left dict having distinct keys and equal sizes, the
forward inclusion of `Value.beqE` forces the two key sets to
coincide. -/
theorem Value.beqE_keys_iff {fs gs : List (String × Value)}
    (hnd : (fs.map Prod.fst).Nodup) (hlen : fs.length = gs.length)
    (hE : Value.beqE fs gs = true) :
    ∀ k, k ∈ fs.map Prod.fst ↔ k ∈ gs.map Prod.fst := by
  have hsub : fs.map Prod.fst ⊆ gs.map Prod.fst := by
    intro k hk
    obtain ⟨⟨k0, y⟩, hmem, hfst⟩ := List.mem_map.1 hk
    subst hfst
    obtain ⟨z, hz, _⟩ := Value.beqE_mem fs gs hE _ y hmem
    exact List.mem_map.2 ⟨(k0, z), PyDict.mem_of_get? hz, rfl⟩
  obtain ⟨l, hperm, hsubl⟩ := hnd.subperm hsub
  have hl : l = gs.map Prod.fst := by
    refine hsubl.eq_of_length ?_
    rw [hperm.length_eq]
    simp [hlen]
  subst hl
  intro k
  exact hperm.mem_iff.symm

/-- Python `==` compares equal values interchangeably: if `b == c`
(both Python-representable), then any value compares equal to `b`
exactly when it compares equal to `c`.  This is what makes
`ckey.index` blind to dict insertion order. -/
theorem Value.beq_congr_aux : ∀ (n : Nat) (a b c : Value), sizeOf b ≤ n →
    Value.wf b = true → Value.wf c = true → Value.beq b c = true →
    Value.beq a b = Value.beq a c := by
  intro n
  induction n with
  | zero =>
      intro a b c hle _ _ _
      exact absurd hle (by cases b <;> simp)
  | succ n ih =>
      intro a b c hle hwb hwc h
      cases b <;> cases c <;> simp [Value.beq] at h
      · rfl
      · subst h; rfl
      · subst h; rfl
      · rename_i bs cs
        have hszb : ∀ y ∈ bs, sizeOf y ≤ n := by
          intro y hy
          have h1 := List.sizeOf_lt_of_mem hy
          have h2 : 1 + sizeOf bs ≤ n + 1 := by simpa using hle
          omega
        have hwbs := Value.wfL_mem bs (by simpa [Value.wf] using hwb)
        have hwcs := Value.wfL_mem cs (by simpa [Value.wf] using hwc)
        have main : ∀ (bs2 : List Value), (∀ y ∈ bs2, sizeOf y ≤ n) →
            (∀ y ∈ bs2, Value.wf y = true) →
            ∀ (cs2 : List Value), (∀ z ∈ cs2, Value.wf z = true) →
            Value.beqL bs2 cs2 = true →
            ∀ as2, Value.beqL as2 bs2 = Value.beqL as2 cs2 := by
          intro bs2
          induction bs2 with
          | nil =>
              intro _ _ cs2 _ hbc as2
              cases cs2 with
              | nil => rfl
              | cons z zs => simp [Value.beqL] at hbc
          | cons y ys ihl =>
              intro hsz hwys cs2 hwcs2 hbc as2
              cases cs2 with
              | nil => simp [Value.beqL] at hbc
              | cons z zs =>
                  simp only [Value.beqL, Bool.and_eq_true] at hbc
                  cases as2 with
                  | nil => rfl
                  | cons x xs =>
                      simp only [Value.beqL]
                      rw [ih x y z (hsz y (by simp)) (hwys y (by simp))
                          (hwcs2 z (by simp)) hbc.1,
                        ihl (fun u hu => hsz u (by simp [hu]))
                          (fun u hu => hwys u (by simp [hu])) zs
                          (fun u hu => hwcs2 u (by simp [hu])) hbc.2 xs]
        cases a with
        | tuple as => simp only [Value.beq]; exact main bs hszb hwbs cs hwcs h as
        | none => simp [Value.beq]
        | int x => simp [Value.beq]
        | str x => simp [Value.beq]
        | dict x => simp [Value.beq]
      · rename_i fs gs
        obtain ⟨hlen, hE⟩ := h
        simp only [Value.wf, Bool.and_eq_true] at hwb hwc
        have hndf : (fs.map Prod.fst).Nodup := Value.wfKeys_nodup _ hwb.1
        have hkiff := Value.beqE_keys_iff hndf hlen hE
        have hszf : ∀ (k : String) (y : Value), (k, y) ∈ fs → sizeOf y ≤ n := by
          intro k y hy
          have h1 := List.sizeOf_lt_of_mem hy
          have h2 : 1 + sizeOf fs ≤ n + 1 := by simpa using hle
          have h3 : 1 + sizeOf k + sizeOf y = sizeOf (k, y) := by simp
          omega
        have hwfs := Value.wfE_mem fs hwb.2
        have hwgs := Value.wfE_mem gs hwc.2
        have hfind : ∀ (k : String) (x : Value),
            (match PyDict.get? fs k with
             | some y => Value.beq x y
             | Option.none => false) =
            (match PyDict.get? gs k with
             | some z => Value.beq x z
             | Option.none => false) := by
          intro k x
          cases hgf : PyDict.get? fs k with
          | some y =>
              obtain ⟨z, hgz, hyz⟩ :=
                Value.beqE_mem fs gs hE k y (PyDict.mem_of_get? hgf)
              rw [hgz]
              exact ih x y z (hszf k y (PyDict.mem_of_get? hgf))
                (hwfs k y (PyDict.mem_of_get? hgf))
                (hwgs k z (PyDict.mem_of_get? hgz)) hyz
          | none =>
              have hknotf : k ∉ fs.map Prod.fst := PyDict.get?_eq_none.1 hgf
              have hknotg : k ∉ gs.map Prod.fst :=
                fun hm => hknotf ((hkiff k).2 hm)
              rw [PyDict.get?_eq_none.2 hknotg]
        cases a with
        | dict es =>
            simp only [Value.beq]
            rw [hlen]
            have hEE : Value.beqE es fs = Value.beqE es gs := by
              induction es with
              | nil => rfl
              | cons e es2 ihe =>
                  obtain ⟨k, x⟩ := e
                  simp only [Value.beqE]
                  rw [hfind k x, ihe]
            rw [hEE]
        | none => simp [Value.beq]
        | int x => simp [Value.beq]
        | str x => simp [Value.beq]
        | tuple x => simp [Value.beq]

/-- `Value.beq_congr_aux` at its own size bound. -/
theorem Value.beq_congr (a b c : Value) (hwb : Value.wf b = true)
    (hwc : Value.wf c = true) (h : Value.beq b c = true) :
    Value.beq a b = Value.beq a c :=
  Value.beq_congr_aux (sizeOf b) a b c le_rfl hwb hwc h

/-- Keys that are Python-`==` equal are interchangeable under the
registry comparison `keyBeq`. -/
theorem keyBeq_congr {k1 k2 : PyDict} (hw1 : Value.wf (.dict k1) = true)
    (hw2 : Value.wf (.dict k2) = true) (h : keyBeq k1 k2 = true)
    (l : PyDict) : keyBeq l k1 = keyBeq l k2 :=
  Value.beq_congr (.dict l) (.dict k1) (.dict k2) hw1 hw2 h

/-- `ckey.index` is blind to which of two `==`-equal keys is looked
up. -/
theorem findKeyIdx_congr {k1 k2 : PyDict} (hw1 : Value.wf (.dict k1) = true)
    (hw2 : Value.wf (.dict k2) = true) (h : keyBeq k1 k2 = true) :
    ∀ reg : List PyDict, findKeyIdx reg k1 = findKeyIdx reg k2 := by
  intro reg
  induction reg with
  | nil => rfl
  | cons l rest ihr =>
      simp only [findKeyIdx]
      rw [keyBeq_congr hw1 hw2 h l, ihr]

/-- Appending a fresh key `k1` makes any `==`-equal key `k2` found at
the old length. -/
theorem findKeyIdx_append_found {k1 k2 : PyDict}
    (hw1 : Value.wf (.dict k1) = true) (hw2 : Value.wf (.dict k2) = true)
    (hk : keyBeq k1 k2 = true) :
    ∀ reg : List PyDict, findKeyIdx reg k1 = Option.none →
    findKeyIdx (reg ++ [k1]) k2 = some reg.length := by
  intro reg
  induction reg with
  | nil => intro _; simp [findKeyIdx, hk]
  | cons l rest ihr =>
      intro hn
      have hl1 : keyBeq l k1 = false := by
        by_cases hh : keyBeq l k1 = true
        · simp [findKeyIdx, hh] at hn
        · simpa using hh
      have hl2 : keyBeq l k2 = false := by
        rw [← keyBeq_congr hw1 hw2 hk l]
        exact hl1
      have hrest : findKeyIdx rest k1 = Option.none := by
        simp only [findKeyIdx, hl1, Bool.false_eq_true, if_false] at hn
        exact Option.map_eq_none.1 hn
      simp [findKeyIdx, hl2, ihr hrest]

/-- C1: two construction calls of the same concrete case class whose
arguments normalise to Python-`==`-equal canonical parameter
assignments (`keyBeq`, which on dicts ignores insertion order at every
nesting level) return the very same registry slot: the first call may
create and register the instance, the second call finds the stored
key, returns the cached instance (same reference), leaves the registry
untouched and runs no user construction (`ran = false`).  `T(a) ==
T(a)` follows because `CaseClass` defines no `__eq__`, so `==` is
reference identity and both calls return the same instance.  The
well-formedness hypotheses say the two keys are Python-representable
(no dict holds a key twice), which holds of every key the program can
build. -/
theorem interning_same_instance (s : Sig) (reg : List PyDict)
    (args1 args2 : List Value) (kw1 kw2 : PyDict) (key1 key2 : PyDict)
    (h1 : bindSig s args1 kw1 = .ok key1)
    (h2 : bindSig s args2 kw2 = .ok key2)
    (hw1 : Value.wf (.dict key1) = true) (hw2 : Value.wf (.dict key2) = true)
    (hkeys : keyBeq key1 key2 = true) :
    ∃ i reg' ran,
      metaCall reg s args1 kw1 = .ok (i, reg', ran) ∧
      metaCall reg' s args2 kw2 = .ok (i, reg', false) := by
  cases hf : findKeyIdx reg key1 with
  | some i =>
      refine ⟨i, reg, false, by simp [metaCall, h1, hf], ?_⟩
      have hf2 : findKeyIdx reg key2 = some i := by
        rw [← findKeyIdx_congr hw1 hw2 hkeys reg]
        exact hf
      simp [metaCall, h2, hf2]
  | none =>
      refine ⟨reg.length, reg ++ [key1], true, by simp [metaCall, h1, hf], ?_⟩
      simp [metaCall, h2, findKeyIdx_append_found hw1 hw2 hkeys reg hf]

/-- Witness: for `Test.__init__(self, **kw)`, constructing
`Test(e=4, f=5)` and then `Test(f=5, e=4)` — the two keyword dicts are
distinct as entry lists but Python-`==` equal — returns the same
registry slot, with no user construction on the second call. -/
theorem interning_same_instance_witness :
    ∃ i reg' ran,
      metaCall [] sigOnlyKw [] [("e", .int 4), ("f", .int 5)] =
        .ok (i, reg', ran) ∧
      metaCall reg' sigOnlyKw [] [("f", .int 5), ("e", .int 4)] =
        .ok (i, reg', false) :=
  interning_same_instance sigOnlyKw [] [] []
    [("e", .int 4), ("f", .int 5)] [("f", .int 5), ("e", .int 4)]
    [("d", .dict [("e", .int 4), ("f", .int 5)])]
    [("d", .dict [("f", .int 5), ("e", .int 4)])]
    rfl rfl (by decide) (by decide) (by decide)

theorem bindLoop_append (ps qs : List Param) (st : BindState) :
    bindLoop (ps ++ qs) st = match bindLoop ps st with
      | .error e => .error e
      | .ok st' => bindLoop qs st' := by
  induction ps generalizing st with
  | nil => simp [bindLoop]
  | cons p ps ih =>
      simp only [List.cons_append, bindLoop]
      cases bindStep st p with
      | error e => rfl
      | ok st' => exact ih st'

theorem bindStep_ok {st : BindState} {p : Param} {st' : BindState}
    (h : bindStep st p = .ok st') :
    ∃ v, st'.values = st.values.insertKV p.name v ∧
      st'.passed = st.passed ++ [p.name] ∧
      st'.kwargs.Sublist st.kwargs := by
  cases htp : p.tp <;> simp only [bindStep, htp] at h <;> repeat' split at h
  all_goals try exact Except.noConfusion h
  all_goals injection h with h
  all_goals subst h
  all_goals refine ⟨_, rfl, rfl, ?_⟩
  all_goals first
    | exact List.Sublist.refl _
    | exact PyDict.pop_sublist _ _
    | exact List.nil_sublist _

theorem bindLoop_shape : ∀ (ps : List Param) (st st' : BindState),
    bindLoop ps st = .ok st' →
    PyDict.keys st.values = st.passed →
    (st.passed ++ ps.map Param.name).Nodup →
    ∃ vs : List Value, vs.length = ps.length ∧
      st'.values = st.values ++ (ps.map Param.name).zip vs ∧
      st'.passed = st.passed ++ ps.map Param.name ∧
      st'.kwargs.Sublist st.kwargs := by
  intro ps
  induction ps with
  | nil =>
      intro st st' h hkeys hnd
      simp only [bindLoop] at h
      injection h with h
      subst h
      exact ⟨[], rfl, by simp, by simp, List.Sublist.refl _⟩
  | cons p ps ih =>
      intro st st' h hkeys hnd
      simp only [bindLoop] at h
      cases hstep : bindStep st p with
      | error e => rw [hstep] at h; exact Except.noConfusion h
      | ok st₁ =>
          rw [hstep] at h
          obtain ⟨v, hv, hp, hkw⟩ := bindStep_ok hstep
          have hfresh : p.name ∉ PyDict.keys st.values := by
            rw [hkeys]
            have := (List.nodup_append.1 hnd).2.2
            intro hmem
            exact this hmem (List.mem_cons_self _ _)
          have hins : st.values.insertKV p.name v = st.values ++ [(p.name, v)] :=
            PyDict.insertKV_of_not_mem v hfresh
          have hkeys₁ : PyDict.keys st₁.values = st₁.passed := by
            rw [hv, hins, hp, PyDict.keys_append, hkeys]
            rfl
          have hnd₁ : (st₁.passed ++ ps.map Param.name).Nodup := by
            rw [hp]
            simpa [List.append_assoc] using hnd
          obtain ⟨vs, hlen, hvals, hpass, hsub⟩ := ih st₁ st' h hkeys₁ hnd₁
          refine ⟨v :: vs, by simp [hlen], ?_, ?_, hsub.trans hkw⟩
          · rw [hvals, hv, hins]
            simp [List.append_assoc]
          · rw [hpass, hp]
            simp

theorem sigIter_split (s : Sig) :
    sigIter s = posParams s ++ (varargParams s ++ (kwonlyParams s ++ varkwParams s)) := by
  simp [sigIter, posParams, varargParams, kwonlyParams, varkwParams, List.append_assoc]

theorem posParams_names (s : Sig) : (posParams s).map Param.name = s.args := by
  simp [posParams, List.map_map, Function.comp_def, apply_ite Param.name,
    List.enum_map_snd]

theorem posParams_length (s : Sig) : (posParams s).length = s.args.length := by
  simp [posParams]

theorem kwonlyParams_names (s : Sig) :
    (kwonlyParams s).map Param.name = s.kwonlyargs := by
  simp [kwonlyParams, List.map_map, Function.comp_def]

theorem kwonlyParams_length (s : Sig) :
    (kwonlyParams s).length = s.kwonlyargs.length := by
  simp [kwonlyParams]

theorem paramNames_eq (s : Sig) :
    paramNames s =
      s.args ++ (s.vararg.toList ++ (s.kwonlyargs ++ s.varkw.toList)) := by
  rw [paramNames, sigIter_split]
  cases hva : s.vararg <;> cases hvk : s.varkw <;>
    simp [varargParams, varkwParams, hva, hvk, posParams_names,
      kwonlyParams_names, List.map_append, Option.toList]

theorem findDouble_eq_none {kw : PyDict} {passed : List String} :
    findDouble kw passed = Option.none ↔ ∀ k ∈ PyDict.keys kw, k ∉ passed := by
  simp [findDouble, List.find?_eq_none, PyDict.keys]

theorem bindLoop_append_ok {ps qs : List Param} {st st' : BindState}
    (h : bindLoop (ps ++ qs) st = .ok st') :
    ∃ stm, bindLoop ps st = .ok stm ∧ bindLoop qs stm = .ok st' := by
  rw [bindLoop_append] at h
  cases hA : bindLoop ps st with
  | error e => rw [hA] at h; exact Except.noConfusion h
  | ok stm => rw [hA] at h; exact ⟨stm, rfl, h⟩

theorem bindSig_ok_elim {s : Sig} {args : List Value} {kwargs : PyDict}
    {vals : PyDict} (h : bindSig s args kwargs = .ok vals) :
    ∃ stF, bindLoop (sigIter s) ⟨[], args, kwargs, false, []⟩ = .ok stF ∧
      stF.args = [] ∧ stF.kwargs = [] ∧ stF.values = vals := by
  unfold bindSig at h
  cases hL : bindLoop (sigIter s) ⟨[], args, kwargs, false, []⟩ with
  | error e => rw [hL] at h; exact Except.noConfusion h
  | ok stF =>
      rw [hL] at h
      simp only [finalCheck] at h
      split at h
      case isTrue ha =>
        split at h
        case isTrue hk =>
          injection h with h
          exact ⟨stF, rfl, List.isEmpty_iff.1 ha, List.isEmpty_iff.1 hk, h⟩
        case isFalse hk =>
          split at h <;> exact Except.noConfusion h
      case isFalse ha => exact Except.noConfusion h

theorem keys_varargEntries (o : Option String) (ts : List Value) :
    PyDict.keys (varargEntries o ts) = o.toList := by
  cases o <;> simp [varargEntries, PyDict.keys, Option.toList]

theorem keys_varkwEntries (o : Option String) (d : PyDict) :
    PyDict.keys (varkwEntries o d) = o.toList := by
  cases o <;> simp [varkwEntries, PyDict.keys, Option.toList]

theorem bind_good {s : Sig} {args : List Value} {kwargs : PyDict} {vals : PyDict}
    (hnd : (paramNames s).Nodup) (hkwn : (PyDict.keys kwargs).Nodup)
    (h : bindSig s args kwargs = .ok vals) : GoodVals s vals := by
  obtain ⟨stF, hL, hFa, hFk, hFv⟩ := bindSig_ok_elim h
  rw [sigIter_split] at hL
  obtain ⟨stA, hA, hL1⟩ := bindLoop_append_ok hL
  obtain ⟨stB, hB, hL2⟩ := bindLoop_append_ok hL1
  obtain ⟨stC, hC, hD⟩ := bindLoop_append_ok hL2
  have hnd' : (s.args ++ (s.vararg.toList ++ (s.kwonlyargs ++ s.varkw.toList))).Nodup := by
    rw [← paramNames_eq]; exact hnd
  have hndargs : s.args.Nodup := (List.nodup_append.1 hnd').1
  have hdisj1 : s.args.Disjoint (s.vararg.toList ++ (s.kwonlyargs ++ s.varkw.toList)) :=
    (List.nodup_append.1 hnd').2.2
  have hnd2 : (s.vararg.toList ++ (s.kwonlyargs ++ s.varkw.toList)).Nodup :=
    (List.nodup_append.1 hnd').2.1
  have hdisj2 : (s.vararg.toList).Disjoint (s.kwonlyargs ++ s.varkw.toList) :=
    (List.nodup_append.1 hnd2).2.2
  have hnd3 : (s.kwonlyargs ++ s.varkw.toList).Nodup :=
    (List.nodup_append.1 hnd2).2.1
  have hndkw : s.kwonlyargs.Nodup := (List.nodup_append.1 hnd3).1
  have hdisj3 : s.kwonlyargs.Disjoint s.varkw.toList :=
    (List.nodup_append.1 hnd3).2.2
  -- A segment
  obtain ⟨pv, hpvlen, hAvals, hApass, hAkw⟩ :=
    bindLoop_shape (posParams s) _ _ hA rfl
      (by simpa [posParams_names] using hndargs)
  rw [posParams_names] at hAvals hApass
  rw [posParams_length] at hpvlen
  simp only [List.nil_append] at hAvals hApass
  have hAkw' : stA.kwargs.Sublist kwargs := hAkw
  have hkeysA : PyDict.keys stA.values = stA.passed := by
    rw [hAvals, hApass, PyDict.keys_zip _ _ (le_of_eq hpvlen.symm)]
  -- B (vararg) step
  obtain ⟨ts, hBvals, hBnone, hBpass, hBkw, hBargs⟩ :
      ∃ ts, stB.values = stA.values ++ varargEntries s.vararg ts ∧
        (s.vararg = Option.none → ts = []) ∧
        stB.passed = stA.passed ++ s.vararg.toList ∧
        stB.kwargs = stA.kwargs ∧
        (s.vararg = Option.none → stB.args = stA.args) := by
    cases hva : s.vararg with
    | none =>
        rw [show varargParams s = [] from by simp [varargParams, hva]] at hB
        simp only [bindLoop] at hB
        injection hB with hB
        subst hB
        exact ⟨[], by simp [varargEntries], fun _ => rfl, by simp [Option.toList], rfl,
          fun _ => rfl⟩
    | some va =>
        rw [show varargParams s = [⟨va, .vararg, Value.none⟩] from
          by simp [varargParams, hva]] at hB
        have hfresh : va ∉ PyDict.keys stA.values := by
          rw [hkeysA, hApass]
          intro hmem
          exact hdisj1 hmem (by simp [hva, Option.toList])
        simp only [bindLoop, bindStep] at hB
        injection hB with hB
        subst hB
        refine ⟨stA.args, ?_, by simp, by simp [Option.toList], rfl, by simp⟩
        simp [varargEntries, PyDict.insertKV_of_not_mem _ hfresh]
  have hkeysB : PyDict.keys stB.values = stB.passed := by
    rw [hBvals, hBpass, PyDict.keys_append, hkeysA, keys_varargEntries]
  -- C (keyword-only) segment
  obtain ⟨wv, hwvlen, hCvals, hCpass, hCkw⟩ :=
    bindLoop_shape (kwonlyParams s) _ _ hC hkeysB
      (by
        rw [hBpass, hApass, kwonlyParams_names, List.append_assoc]
        exact hnd'.sublist
          (((List.sublist_append_left s.kwonlyargs s.varkw.toList).append_left
            _).append_left _))
  rw [kwonlyParams_names] at hCvals hCpass
  rw [kwonlyParams_length] at hwvlen
  have hkeysC : PyDict.keys stC.values = stC.passed := by
    rw [hCvals, hCpass, PyDict.keys_append, hkeysB,
      PyDict.keys_zip _ _ (le_of_eq hwvlen.symm)]
  have hCkw' : stC.kwargs.Sublist kwargs := (hCkw.trans (hBkw ▸ List.Sublist.refl _)).trans hAkw'
  -- D (keyword-vararg) step
  obtain ⟨d, hDvals, hDnone, hDdisj, hDkwempty⟩ :
      ∃ d, stF.values = stC.values ++ varkwEntries s.varkw d ∧
        (s.varkw = Option.none → d = []) ∧
        (∀ k ∈ PyDict.keys d, k ∉ stC.passed) ∧
        (PyDict.keys d).Nodup := by
    cases hvk : s.varkw with
    | none =>
        rw [show varkwParams s = [] from by simp [varkwParams, hvk]] at hD
        simp only [bindLoop] at hD
        injection hD with hD
        subst hD
        exact ⟨[], by simp [varkwEntries], fun _ => rfl, by simp [PyDict.keys],
          by simp [PyDict.keys]⟩
    | some vk =>
        rw [show varkwParams s = [⟨vk, .keywordVararg, Value.none⟩] from
          by simp [varkwParams, hvk]] at hD
        simp only [bindLoop] at hD
        cases hstep : bindStep stC ⟨vk, .keywordVararg, Value.none⟩ with
        | error e => rw [hstep] at hD; exact Except.noConfusion hD
        | ok stD =>
            rw [hstep] at hD
            injection hD with hD
            simp only [bindStep] at hstep
            split at hstep
            · exact Except.noConfusion hstep
            case h_2 hfd =>
              injection hstep with hstep
              subst hstep
              subst hD
              have hfresh : vk ∉ PyDict.keys stC.values := by
                rw [hkeysC, hCpass, hBpass, hApass]
                intro hmem
                simp only [List.mem_append] at hmem
                rcases hmem with (hm | hm) | hm
                · exact hdisj1 hm (by simp [hvk, Option.toList])
                · exact hdisj2 hm (by simp [hvk, Option.toList])
                · exact hdisj3 hm (by simp [hvk, Option.toList])
              refine ⟨stC.kwargs, ?_, by simp [hvk], ?_, ?_⟩
              · simp [varkwEntries, PyDict.insertKV_of_not_mem _ hfresh]
              · exact fun k hk => findDouble_eq_none.1 hfd k hk
              · exact ((hCkw'.map Prod.fst).nodup hkwn)
  -- assemble
  refine ⟨pv, ts, wv, d, hpvlen, hwvlen, hBnone, hDnone, ?_, hDkwempty, ?_⟩
  · intro k hk
    have hnp := hDdisj k hk
    rw [hCpass, hBpass, hApass] at hnp
    simp only [List.mem_append, not_or] at hnp
    refine ⟨hnp.1.1, ?_, hnp.2⟩
    intro heq
    exact hnp.1.2 (by simp [heq, Option.toList])
  · rw [← hFv, hDvals, hCvals, hBvals, hAvals]
    simp [canonicalVals, List.append_assoc]

theorem bindLoop_pos_consume : ∀ (ps : List Param) (st : BindState)
    (vs rest : List Value),
    (∀ p ∈ ps, p.tp = .argument ∨ p.tp = .argumentWithDefault) →
    st.args = vs ++ rest → vs.length = ps.length → st.hadKeyword = false →
    PyDict.keys st.values = st.passed →
    (st.passed ++ ps.map Param.name).Nodup →
    bindLoop ps st = .ok
      { st with values := st.values ++ (ps.map Param.name).zip vs,
                args := rest,
                passed := st.passed ++ ps.map Param.name } := by
  intro ps
  induction ps with
  | nil =>
      intro st vs rest hps hargs hlen hhk hkeys hnd
      obtain rfl : vs = [] := List.length_eq_zero.1 hlen
      simp only [List.nil_append] at hargs
      simp [bindLoop, ← hargs]
  | cons p ps ih =>
      intro st vs rest hps hargs hlen hhk hkeys hnd
      obtain ⟨v, vs', rfl⟩ : ∃ v vs', vs = v :: vs' := by
        cases vs with
        | nil => simp at hlen
        | cons v vs' => exact ⟨v, vs', rfl⟩
      have hfresh : p.name ∉ PyDict.keys st.values := by
        rw [hkeys]
        exact fun hmem =>
          (List.nodup_append.1 hnd).2.2 hmem (List.mem_cons_self _ _)
      have hstep : bindStep st p = .ok
          { st with values := st.values.insertKV p.name v,
                    args := vs' ++ rest,
                    passed := st.passed ++ [p.name] } := by
        rcases hps p (List.mem_cons_self _ _) with htp | htp <;>
          simp [bindStep, htp, hhk, hargs]
      simp only [bindLoop, hstep]
      have hkeys1 : PyDict.keys (st.values.insertKV p.name v) =
          st.passed ++ [p.name] := by
        rw [PyDict.insertKV_of_not_mem _ hfresh, PyDict.keys_append, hkeys]
        rfl
      have hrec := ih
        { st with values := st.values.insertKV p.name v,
                  args := vs' ++ rest,
                  passed := st.passed ++ [p.name] }
        vs' rest (fun q hq => hps q (List.mem_cons_of_mem _ hq)) rfl
        (by simpa using hlen) hhk hkeys1
        (by simpa [List.append_assoc] using hnd)
      rw [hrec]
      simp [PyDict.insertKV_of_not_mem _ hfresh, List.append_assoc, List.zip]

theorem bindLoop_kwonly_consume : ∀ (ps : List Param) (st : BindState)
    (ws : List Value) (rest : PyDict),
    (∀ p ∈ ps, p.tp = .keywordOnly) →
    st.kwargs = (ps.map Param.name).zip ws ++ rest → ws.length = ps.length →
    PyDict.keys st.values = st.passed →
    (st.passed ++ ps.map Param.name).Nodup →
    bindLoop ps st = .ok
      { st with values := st.values ++ (ps.map Param.name).zip ws,
                kwargs := rest,
                passed := st.passed ++ ps.map Param.name } := by
  intro ps
  induction ps with
  | nil =>
      intro st ws rest hps hkw hlen hkeys hnd
      obtain rfl : ws = [] := List.length_eq_zero.1 hlen
      simp only [List.map_nil, List.zip_nil_left, List.nil_append] at hkw
      simp [bindLoop, ← hkw]
  | cons p ps ih =>
      intro st ws rest hps hkw hlen hkeys hnd
      obtain ⟨w, ws', rfl⟩ : ∃ w ws', ws = w :: ws' := by
        cases ws with
        | nil => simp at hlen
        | cons w ws' => exact ⟨w, ws', rfl⟩
      have hfresh : p.name ∉ PyDict.keys st.values := by
        rw [hkeys]
        exact fun hmem =>
          (List.nodup_append.1 hnd).2.2 hmem (List.mem_cons_self _ _)
      have hget : PyDict.get? st.kwargs p.name = some w := by
        rw [hkw]
        simp [PyDict.get?]
      have hpop : st.kwargs.pop p.name = (ps.map Param.name).zip ws' ++ rest := by
        rw [hkw]
        simp [PyDict.pop, List.zip]
      have hstep : bindStep st p = .ok
          { st with values := st.values.insertKV p.name w,
                    kwargs := (ps.map Param.name).zip ws' ++ rest,
                    passed := st.passed ++ [p.name] } := by
        simp [bindStep, hps p (List.mem_cons_self _ _), hget, hpop]
      simp only [bindLoop, hstep]
      have hkeys1 : PyDict.keys (st.values.insertKV p.name w) =
          st.passed ++ [p.name] := by
        rw [PyDict.insertKV_of_not_mem _ hfresh, PyDict.keys_append, hkeys]
        rfl
      have hrec := ih
        { st with values := st.values.insertKV p.name w,
                  kwargs := (ps.map Param.name).zip ws' ++ rest,
                  passed := st.passed ++ [p.name] }
        ws' rest (fun q hq => hps q (List.mem_cons_of_mem _ hq)) rfl
        (by simpa using hlen) hkeys1
        (by simpa [List.append_assoc] using hnd)
      rw [hrec]
      simp [PyDict.insertKV_of_not_mem _ hfresh, List.append_assoc, List.zip]

theorem bindLoop_append_run {ps qs : List Param} {st stm : BindState}
    (h1 : bindLoop ps st = .ok stm) :
    bindLoop (ps ++ qs) st = bindLoop qs stm := by
  rw [bindLoop_append, h1]

theorem posParams_types (s : Sig) :
    ∀ p ∈ posParams s, p.tp = .argument ∨ p.tp = .argumentWithDefault := by
  intro p hp
  rw [posParams, List.mem_map] at hp
  obtain ⟨q, hq, rfl⟩ := hp
  by_cases h : q.1 < s.args.length - s.defaults.length <;> simp [h]

theorem kwonlyParams_types (s : Sig) :
    ∀ p ∈ kwonlyParams s, p.tp = .keywordOnly := by
  intro p hp
  rw [kwonlyParams, List.mem_map] at hp
  obtain ⟨q, hq, rfl⟩ := hp
  rfl

theorem bindLoop_canonical_run {s : Sig} (pv ts wv : List Value) (d : PyDict)
    (hnd : (paramNames s).Nodup)
    (hpv : pv.length = s.args.length) (hwv : wv.length = s.kwonlyargs.length) :
    bindLoop (sigIter s) ⟨[], pv ++ ts, s.kwonlyargs.zip wv ++ d, false, []⟩ =
      match s.varkw, findDouble d (s.args ++ (s.vararg.toList ++ s.kwonlyargs)) with
      | some vk, some k => .error (.doubleArgumentValue k)
      | some vk, Option.none =>
          .ok ⟨canonicalVals s pv ts wv d,
               (match s.vararg with | some _ => [] | Option.none => ts),
               [], false,
               s.args ++ (s.vararg.toList ++ (s.kwonlyargs ++ [vk]))⟩
      | Option.none, _ =>
          .ok ⟨canonicalVals s pv ts wv d,
               (match s.vararg with | some _ => [] | Option.none => ts),
               d, false,
               s.args ++ (s.vararg.toList ++ s.kwonlyargs)⟩ := by
  have hnd' : (s.args ++ (s.vararg.toList ++ (s.kwonlyargs ++ s.varkw.toList))).Nodup := by
    rw [← paramNames_eq]; exact hnd
  have hndargs : s.args.Nodup := (List.nodup_append.1 hnd').1
  have hdisj1 : s.args.Disjoint (s.vararg.toList ++ (s.kwonlyargs ++ s.varkw.toList)) :=
    (List.nodup_append.1 hnd').2.2
  have hnd2 : (s.vararg.toList ++ (s.kwonlyargs ++ s.varkw.toList)).Nodup :=
    (List.nodup_append.1 hnd').2.1
  have hdisj2 : (s.vararg.toList).Disjoint (s.kwonlyargs ++ s.varkw.toList) :=
    (List.nodup_append.1 hnd2).2.2
  have hnd3 : (s.kwonlyargs ++ s.varkw.toList).Nodup :=
    (List.nodup_append.1 hnd2).2.1
  have hndkw : s.kwonlyargs.Nodup := (List.nodup_append.1 hnd3).1
  have hdisj3 : s.kwonlyargs.Disjoint s.varkw.toList :=
    (List.nodup_append.1 hnd3).2.2
  have h1 := bindLoop_pos_consume (posParams s)
    ⟨[], pv ++ ts, s.kwonlyargs.zip wv ++ d, false, []⟩ pv ts
    (posParams_types s) rfl (by rw [posParams_length]; exact hpv) rfl rfl
    (by simpa [posParams_names] using hndargs)
  rw [posParams_names] at h1
  simp only [List.nil_append] at h1
  rw [sigIter_split, bindLoop_append_run h1]
  have hkeys1 : PyDict.keys (s.args.zip pv) = s.args :=
    PyDict.keys_zip _ _ (le_of_eq hpv.symm)
  cases hva : s.vararg with
  | none =>
      rw [show varargParams s = [] from by simp [varargParams, hva],
        List.nil_append]
      have h3 := bindLoop_kwonly_consume (kwonlyParams s)
        ⟨s.args.zip pv, ts, s.kwonlyargs.zip wv ++ d, false, s.args⟩ wv d
        (kwonlyParams_types s) (by simp [kwonlyParams_names]) 
        (by rw [kwonlyParams_length]; exact hwv) hkeys1
        (by
          rw [kwonlyParams_names]
          refine hnd'.sublist ?_
          rw [hva]
          simpa using
            ((List.sublist_append_left s.kwonlyargs s.varkw.toList).append_left s.args))
      rw [kwonlyParams_names] at h3
      rw [bindLoop_append_run h3]
      cases hvk : s.varkw with
      | none =>
          rw [show varkwParams s = [] from by simp [varkwParams, hvk]]
          simp [bindLoop, canonicalVals, varargEntries, varkwEntries, hva, hvk,
            Option.toList, List.append_assoc]
      | some vk =>
          rw [show varkwParams s = [⟨vk, .keywordVararg, Value.none⟩] from
            by simp [varkwParams, hvk]]
          have hfreshvk : vk ∉ PyDict.keys (s.args.zip pv ++ s.kwonlyargs.zip wv) := by
            rw [PyDict.keys_append, hkeys1,
              PyDict.keys_zip _ _ (le_of_eq hwv.symm)]
            intro hmem
            rcases List.mem_append.1 hmem with hm | hm
            · exact hdisj1 hm (by simp [hvk, Option.toList])
            · exact hdisj3 hm (by simp [hvk, Option.toList])
          simp only [bindLoop, bindStep, Option.toList, List.nil_append]
          cases hfd : findDouble d (s.args ++ s.kwonlyargs) with
          | some k => simp [hfd]
          | none =>
              simp only [hfd]
              simp [canonicalVals, varargEntries, varkwEntries, hva, hvk,
                Option.toList, List.append_assoc,
                PyDict.insertKV_of_not_mem _ hfreshvk]
  | some va =>
      rw [show varargParams s = [⟨va, .vararg, Value.none⟩] from
        by simp [varargParams, hva]]
      have hfreshva : va ∉ PyDict.keys (s.args.zip pv) := by
        rw [hkeys1]
        intro hmem
        exact hdisj1 hmem (by simp [hva, Option.toList])
      have h2 : bindLoop [(⟨va, .vararg, Value.none⟩ : Param)]
          ⟨s.args.zip pv, ts, s.kwonlyargs.zip wv ++ d, false, s.args⟩ =
          .ok ⟨s.args.zip pv ++ [(va, .tuple ts)], [],
               s.kwonlyargs.zip wv ++ d, false, s.args ++ [va]⟩ := by
        simp [bindLoop, bindStep, PyDict.insertKV_of_not_mem _ hfreshva]
      rw [show ([(⟨va, .vararg, Value.none⟩ : Param)] ++
          (kwonlyParams s ++ varkwParams s)) =
          (⟨va, .vararg, Value.none⟩ : Param) ::
            (kwonlyParams s ++ varkwParams s) from rfl] at *
      rw [show ((⟨va, .vararg, Value.none⟩ : Param) ::
          (kwonlyParams s ++ varkwParams s)) =
          [(⟨va, .vararg, Value.none⟩ : Param)] ++
            (kwonlyParams s ++ varkwParams s) from rfl]
      rw [bindLoop_append_run h2]
      have hkeys2 : PyDict.keys (s.args.zip pv ++ [(va, .tuple ts)]) =
          s.args ++ [va] := by
        rw [PyDict.keys_append, hkeys1]
        rfl
      have h3 := bindLoop_kwonly_consume (kwonlyParams s)
        ⟨s.args.zip pv ++ [(va, .tuple ts)], [],
         s.kwonlyargs.zip wv ++ d, false, s.args ++ [va]⟩ wv d
        (kwonlyParams_types s) (by simp [kwonlyParams_names])
        (by rw [kwonlyParams_length]; exact hwv) hkeys2
        (by
          rw [kwonlyParams_names]
          refine hnd'.sublist ?_
          rw [hva]
          simp only [Option.toList]
          rw [List.append_assoc]
          exact (((List.sublist_append_left s.kwonlyargs s.varkw.toList).append_left
            [va]).append_left s.args))
      rw [kwonlyParams_names] at h3
      rw [bindLoop_append_run h3]
      cases hvk : s.varkw with
      | none =>
          rw [show varkwParams s = [] from by simp [varkwParams, hvk]]
          simp [bindLoop, canonicalVals, varargEntries, varkwEntries, hva, hvk,
            Option.toList, List.append_assoc]
      | some vk =>
          rw [show varkwParams s = [⟨vk, .keywordVararg, Value.none⟩] from
            by simp [varkwParams, hvk]]
          have hfreshvk : vk ∉ PyDict.keys ((s.args.zip pv ++ [(va, .tuple ts)])
              ++ s.kwonlyargs.zip wv) := by
            rw [PyDict.keys_append, hkeys2,
              PyDict.keys_zip _ _ (le_of_eq hwv.symm)]
            intro hmem
            rcases List.mem_append.1 hmem with hm | hm
            · rcases List.mem_append.1 hm with hm' | hm'
              · exact hdisj1 hm' (by simp [hvk, Option.toList])
              · simp only [List.mem_singleton] at hm'
                subst hm'
                exact hdisj2
                  (show vk ∈ s.vararg.toList from by simp [hva, Option.toList])
                  (show vk ∈ s.kwonlyargs ++ s.varkw.toList from by
                    simp [hvk, Option.toList])
            · exact hdisj3 hm (by simp [hvk, Option.toList])
          simp only [bindLoop, bindStep, Option.toList, List.append_assoc,
            List.singleton_append]
          cases hfd : findDouble d (s.args ++ (va :: s.kwonlyargs)) with
          | some k => simp [hfd]
          | none =>
              simp only [hfd]
              have hfreshvk2 : vk ∉ PyDict.keys (s.args.zip pv ++
                  (va, Value.tuple ts) :: s.kwonlyargs.zip wv) := by
                simpa [PyDict.keys, List.append_assoc] using hfreshvk
              simp [canonicalVals, varargEntries, varkwEntries, hva, hvk,
                Option.toList, List.append_assoc,
                PyDict.insertKV_of_not_mem _ hfreshvk2]

theorem bindSig_canonical_input {s : Sig} (pv ts wv : List Value) (d : PyDict)
    (hnd : (paramNames s).Nodup)
    (hpv : pv.length = s.args.length) (hwv : wv.length = s.kwonlyargs.length)
    (hts : s.vararg = Option.none → ts = [])
    (hd : s.varkw = Option.none → d = [])
    (hdisj : ∀ k ∈ PyDict.keys d,
      k ∉ s.args ∧ s.vararg ≠ some k ∧ k ∉ s.kwonlyargs) :
    bindSig s (pv ++ ts) (s.kwonlyargs.zip wv ++ d) =
      .ok (canonicalVals s pv ts wv d) := by
  have hrun := bindLoop_canonical_run pv ts wv d hnd hpv hwv
  have hfd : findDouble d (s.args ++ (s.vararg.toList ++ s.kwonlyargs)) =
      Option.none := by
    rw [findDouble_eq_none]
    intro k hk hmem
    obtain ⟨h1, h2, h3⟩ := hdisj k hk
    rcases List.mem_append.1 hmem with hm | hm
    · exact h1 hm
    · rcases List.mem_append.1 hm with hm' | hm'
      · refine h2 ?_
        cases hva : s.vararg <;> rw [hva] at hm' <;>
          simp [Option.toList] at hm'
        rw [hm']
      · exact h3 hm'
  unfold bindSig
  cases hvk : s.varkw with
  | none =>
      rw [hvk] at hrun
      rw [hrun]
      have hdnil := hd hvk
      subst hdnil
      cases hva : s.vararg with
      | none =>
          have htsnil := hts hva
          subst htsnil
          simp [finalCheck, hva, canonicalVals, varkwEntries, hvk]
      | some va => simp [finalCheck, hva, canonicalVals, varkwEntries, hvk]
  | some vk =>
      rw [hvk] at hrun
      rw [hfd] at hrun
      rw [hrun]
      cases hva : s.vararg with
      | none =>
          have htsnil := hts hva
          subst htsnil
          simp [finalCheck, hva]
      | some va => simp [finalCheck, hva]

theorem GoodVals_keys {s : Sig} {vals : PyDict} (h : GoodVals s vals) :
    PyDict.keys vals = paramNames s := by
  obtain ⟨pv, ts, wv, d, hpv, hwv, h1, h2, h3, h4, rfl⟩ := h
  rw [paramNames_eq]
  simp [canonicalVals, PyDict.keys_append,
    PyDict.keys_zip _ _ (le_of_eq hpv.symm),
    PyDict.keys_zip _ _ (le_of_eq hwv.symm), keys_varargEntries,
    keys_varkwEntries, List.append_assoc]

/-- C2: binding completeness.  For the signature `(a, b=1, *c, **d)`,
applying `(1, 2, 3, e=4)` binds `a=1, b=2, c=(3,), d={'e': 4}` and
applying `(1)` binds `a=1, b=1, c=(), d={}`; and on every successful
application of any signature (with distinct parameter names, and
keyword arguments forming a dict), the normalised values bind exactly
the signature's parameter names, each exactly once. -/
theorem binding_completeness :
    bindSig sigAB [.int 1, .int 2, .int 3] [("e", .int 4)] =
      .ok [("a", .int 1), ("b", .int 2), ("c", .tuple [.int 3]),
           ("d", .dict [("e", .int 4)])] ∧
    bindSig sigAB [.int 1] [] =
      .ok [("a", .int 1), ("b", .int 1), ("c", .tuple []), ("d", .dict [])] ∧
    ∀ (s : Sig) (args : List Value) (kwargs vals : PyDict),
      (paramNames s).Nodup → (PyDict.keys kwargs).Nodup →
      bindSig s args kwargs = .ok vals →
      PyDict.keys vals = paramNames s ∧
      ∀ n ∈ paramNames s, (PyDict.keys vals).count n = 1 := by
  refine ⟨rfl, rfl, ?_⟩
  intro s args kwargs vals hnd hkwn h
  have hkeys := GoodVals_keys (bind_good hnd hkwn h)
  refine ⟨hkeys, ?_⟩
  intro n hmem
  rw [hkeys]
  exact List.count_eq_one_of_mem hnd hmem

/-- Witness for the universally quantified part of C2: binding
`f(a)` at `f(1)` yields values whose keys are exactly `["a"]`. -/
theorem binding_completeness_witness :
    PyDict.keys [("a", Value.int 1)] = paramNames sigA ∧
    ∀ n ∈ paramNames sigA,
      (PyDict.keys [("a", Value.int 1)]).count n = 1 :=
  binding_completeness.2.2 sigA [.int 1] [] [("a", .int 1)]
    (by decide) (by decide) rfl

theorem rebindLoop_append (vals : PyDict) (ps qs : List Param)
    (st : RebindState) :
    rebindLoop vals (ps ++ qs) st = match rebindLoop vals ps st with
      | .error e => .error e
      | .ok st' => rebindLoop vals qs st' := by
  induction ps generalizing st with
  | nil => simp [rebindLoop]
  | cons p ps ih =>
      simp only [List.cons_append, rebindLoop]
      cases rebindStep vals st p with
      | error e => rfl
      | ok st' => exact ih st'

theorem rebindLoop_append_run {vals : PyDict} {ps qs : List Param}
    {st stm : RebindState} (h1 : rebindLoop vals ps st = .ok stm) :
    rebindLoop vals (ps ++ qs) st = rebindLoop vals qs stm := by
  rw [rebindLoop_append, h1]

theorem rebindLoop_pos_empty (vals : PyDict) : ∀ (ps : List Param)
    (st : RebindState),
    (∀ p ∈ ps, p.tp = .argument ∨ p.tp = .argumentWithDefault) →
    st.args = [] → st.kwargs = [] →
    rebindLoop vals ps st = .ok
      { st with
        targetArgs := st.targetArgs ++
          ps.map (fun p => (PyDict.get? vals p.name).getD Value.none),
        hadKeyword := st.hadKeyword || !ps.isEmpty,
        passed := st.passed ++ ps.map Param.name } := by
  intro ps
  induction ps with
  | nil =>
      intro st hps hargs hkw
      simp [rebindLoop]
  | cons p ps ih =>
      intro st hps hargs hkw
      have hstep : rebindStep vals st p = .ok
          { st with
            targetArgs := st.targetArgs ++
              [(PyDict.get? vals p.name).getD Value.none],
            hadKeyword := true,
            passed := st.passed ++ [p.name] } := by
        cases hhk : st.hadKeyword <;>
          rcases hps p (List.mem_cons_self _ _) with htp | htp <;>
          simp [rebindStep, htp, hhk, hargs, hkw, PyDict.get?]
      simp only [rebindLoop, hstep]
      have hrec := ih
        { st with
          targetArgs := st.targetArgs ++
            [(PyDict.get? vals p.name).getD Value.none],
          hadKeyword := true,
          passed := st.passed ++ [p.name] }
        (fun q hq => hps q (List.mem_cons_of_mem _ hq)) hargs hkw
      rw [hrec]
      simp [List.append_assoc]

theorem rebindLoop_kwonly_empty (vals : PyDict) : ∀ (ps : List Param)
    (st : RebindState),
    (∀ p ∈ ps, p.tp = .keywordOnly) → st.kwargs = [] →
    (PyDict.keys st.targetKwargs ++ ps.map Param.name).Nodup →
    rebindLoop vals ps st = .ok
      { st with
        targetKwargs := st.targetKwargs ++
          ps.map (fun p => (p.name, (PyDict.get? vals p.name).getD Value.none)),
        passed := st.passed ++ ps.map Param.name } := by
  intro ps
  induction ps with
  | nil =>
      intro st hps hkw hnd
      simp [rebindLoop]
  | cons p ps ih =>
      intro st hps hkw hnd
      have hfresh : p.name ∉ PyDict.keys st.targetKwargs := by
        intro hmem
        exact (List.nodup_append.1 hnd).2.2 hmem (List.mem_cons_self _ _)
      have hstep : rebindStep vals st p = .ok
          { st with
            targetKwargs := st.targetKwargs ++
              [(p.name, (PyDict.get? vals p.name).getD Value.none)],
            passed := st.passed ++ [p.name] } := by
        simp [rebindStep, hps p (List.mem_cons_self _ _), hkw, PyDict.get?,
          PyDict.insertKV_of_not_mem _ hfresh]
      simp only [rebindLoop, hstep]
      have hrec := ih
        { st with
          targetKwargs := st.targetKwargs ++
            [(p.name, (PyDict.get? vals p.name).getD Value.none)],
          passed := st.passed ++ [p.name] }
        (fun q hq => hps q (List.mem_cons_of_mem _ hq)) hkw
        (by
          simp only [PyDict.keys_append]
          have : PyDict.keys [(p.name, (PyDict.get? vals p.name).getD Value.none)] =
              [p.name] := rfl
          rw [this]
          simpa [List.append_assoc] using hnd)
      rw [hrec]
      simp [List.append_assoc]

theorem foldl_insertKV_append : ∀ (dnew acc : PyDict),
    (∀ k ∈ PyDict.keys dnew, k ∉ PyDict.keys acc) →
    (PyDict.keys dnew).Nodup →
    dnew.foldl (fun a e => a.insertKV e.1 e.2) acc = acc ++ dnew := by
  intro dnew
  induction dnew with
  | nil => intro acc h1 h2; simp
  | cons e rest ih =>
      intro acc hfr hnd
      obtain ⟨k, v⟩ := e
      simp only [List.foldl_cons]
      rw [show PyDict.insertKV acc k v = acc ++ [(k, v)] from
        PyDict.insertKV_of_not_mem _ (hfr k (by simp [PyDict.keys]))]
      rw [ih (acc ++ [(k, v)]) ?_ ?_]
      · simp
      · intro k' hk'
        rw [PyDict.keys_append]
        intro hmem
        rcases List.mem_append.1 hmem with hm | hm
        · refine hfr k' ?_ hm
          simp only [PyDict.keys, List.map_cons, List.mem_cons]
          exact Or.inr (by simpa [PyDict.keys] using hk')
        · simp only [PyDict.keys, List.map_singleton, List.mem_singleton] at hm
          subst hm
          simp only [PyDict.keys, List.map_cons, List.nodup_cons] at hnd
          exact hnd.1 (by simpa [PyDict.keys] using hk')
      · simp only [PyDict.keys, List.map_cons, List.nodup_cons] at hnd
        exact hnd.2

theorem map_entry_lookup : ∀ (ns : List String) (vs : List Value)
    (pre rest dict : PyDict),
    dict = pre ++ (ns.zip vs ++ rest) →
    ns.length = vs.length → ns.Nodup →
    (∀ n ∈ ns, n ∉ PyDict.keys pre) →
    ns.map (fun n => (n, (PyDict.get? dict n).getD Value.none)) = ns.zip vs := by
  intro ns
  induction ns with
  | nil => intro vs pre rest dict hdict hlen hnd hpre; simp
  | cons n ns ih =>
      intro vs pre rest dict hdict hlen hnd hpre
      obtain ⟨v, vs', rfl⟩ : ∃ v vs', vs = v :: vs' := by
        cases vs with
        | nil => simp at hlen
        | cons v vs' => exact ⟨v, vs', rfl⟩
      have hdict' : dict = (pre ++ [(n, v)]) ++ (ns.zip vs' ++ rest) := by
        rw [hdict]
        simp [List.zip_cons_cons, List.append_assoc]
      have hhead : PyDict.get? dict n = some v := by
        rw [hdict, PyDict.get?_append_right _ (hpre n (List.mem_cons_self _ _))]
        simp [PyDict.get?]
      have htail := ih vs' (pre ++ [(n, v)]) rest dict hdict'
        (by simpa using hlen) (List.nodup_cons.1 hnd).2
        (by
          intro m hm
          rw [PyDict.keys_append]
          intro hmem
          rcases List.mem_append.1 hmem with h | h
          · exact hpre m (List.mem_cons_of_mem _ hm) h
          · simp only [PyDict.keys, List.map_singleton, List.mem_singleton] at h
            subst h
            exact (List.nodup_cons.1 hnd).1 hm)
      simp only [List.map_cons, hhead, Option.getD_some, htail,
        List.zip_cons_cons]

theorem map_lookup (ns : List String) (vs : List Value)
    (pre rest dict : PyDict)
    (hdict : dict = pre ++ (ns.zip vs ++ rest))
    (hlen : ns.length = vs.length) (hnd : ns.Nodup)
    (hpre : ∀ n ∈ ns, n ∉ PyDict.keys pre) :
    ns.map (fun n => (PyDict.get? dict n).getD Value.none) = vs := by
  have h := map_entry_lookup ns vs pre rest dict hdict hlen hnd hpre
  have h2 : ns.map (fun n => (PyDict.get? dict n).getD Value.none) =
      (ns.map (fun n => (n, (PyDict.get? dict n).getD Value.none))).map
        Prod.snd := by
    rw [List.map_map]
    rfl
  rw [h2, h]
  exact List.map_snd_zip ns vs (le_of_eq hlen.symm)

theorem get?_canonical_vararg {s : Sig} {pv ts wv : List Value} {d : PyDict}
    {va : String} (hpv : pv.length = s.args.length)
    (hva : s.vararg = some va) (hnotin : va ∉ s.args) :
    PyDict.get? (canonicalVals s pv ts wv d) va = some (.tuple ts) := by
  unfold canonicalVals
  rw [List.append_assoc, List.append_assoc, PyDict.get?_append_right _
    (by rw [PyDict.keys_zip _ _ (le_of_eq hpv.symm)]; exact hnotin)]
  rw [hva]
  simp [varargEntries, PyDict.get?]

theorem get?_canonical_varkw {s : Sig} {pv ts wv : List Value} {d : PyDict}
    {vk : String} (hpv : pv.length = s.args.length)
    (hwv : wv.length = s.kwonlyargs.length)
    (hvk : s.varkw = some vk) (h1 : vk ∉ s.args)
    (h2 : s.vararg ≠ some vk) (h3 : vk ∉ s.kwonlyargs) :
    PyDict.get? (canonicalVals s pv ts wv d) vk = some (.dict d) := by
  unfold canonicalVals
  rw [List.append_assoc, List.append_assoc, PyDict.get?_append_right _
    (by rw [PyDict.keys_zip _ _ (le_of_eq hpv.symm)]; exact h1)]
  rw [PyDict.get?_append_right _
    (by
      rw [keys_varargEntries]
      intro hmem
      cases hvae : s.vararg with
      | none => rw [hvae] at hmem; simp [Option.toList] at hmem
      | some w =>
          rw [hvae] at hmem
          simp only [Option.toList, List.mem_singleton] at hmem
          subst hmem
          exact h2 hvae)]
  rw [PyDict.get?_append_right _
    (by rw [PyDict.keys_zip _ _ (le_of_eq hwv.symm)]; exact h3)]
  rw [hvk]
  simp [varkwEntries, PyDict.get?]

theorem appliedCall_empty {s : Sig} {vals : PyDict}
    (hnd : (paramNames s).Nodup) (hgood : GoodVals s vals) :
    appliedCall s vals [] [] = .ok vals := by
  obtain ⟨pv, ts, wv, d, hpv, hwv, hts, hd, hdisj, hdnd, rfl⟩ := hgood
  have hnd' : (s.args ++ (s.vararg.toList ++ (s.kwonlyargs ++ s.varkw.toList))).Nodup := by
    rw [← paramNames_eq]; exact hnd
  have hndargs : s.args.Nodup := (List.nodup_append.1 hnd').1
  have hdisj1 : s.args.Disjoint (s.vararg.toList ++ (s.kwonlyargs ++ s.varkw.toList)) :=
    (List.nodup_append.1 hnd').2.2
  have hnd2 : (s.vararg.toList ++ (s.kwonlyargs ++ s.varkw.toList)).Nodup :=
    (List.nodup_append.1 hnd').2.1
  have hdisj2 : (s.vararg.toList).Disjoint (s.kwonlyargs ++ s.varkw.toList) :=
    (List.nodup_append.1 hnd2).2.2
  have hnd3 : (s.kwonlyargs ++ s.varkw.toList).Nodup :=
    (List.nodup_append.1 hnd2).2.1
  have hndkw : s.kwonlyargs.Nodup := (List.nodup_append.1 hnd3).1
  have hdisj3 : s.kwonlyargs.Disjoint s.varkw.toList :=
    (List.nodup_append.1 hnd3).2.2
  set cv := canonicalVals s pv ts wv d with hcv
  -- positional traversal
  have hload : (posParams s).map
      (fun p => (PyDict.get? cv p.name).getD Value.none) = pv := by
    have hcomp : (posParams s).map
        (fun p => (PyDict.get? cv p.name).getD Value.none) =
        ((posParams s).map Param.name).map
          (fun n => (PyDict.get? cv n).getD Value.none) := by
      rw [List.map_map]
      rfl
    rw [hcomp, posParams_names]
    exact map_lookup s.args pv []
      (varargEntries s.vararg ts ++ (s.kwonlyargs.zip wv ++ varkwEntries s.varkw d))
      cv (by rw [hcv]; simp [canonicalVals, List.append_assoc]) hpv.symm
      hndargs (by simp [PyDict.keys])
  have h1 := rebindLoop_pos_empty cv (posParams s) ⟨[], [], [], [], false, []⟩
    (posParams_types s) rfl rfl
  rw [hload, posParams_names] at h1
  simp only [List.nil_append, Bool.false_or] at h1
  have hkload : (kwonlyParams s).map
      (fun p => (p.name, (PyDict.get? cv p.name).getD Value.none)) =
      s.kwonlyargs.zip wv := by
    have hcomp : (kwonlyParams s).map
        (fun p => (p.name, (PyDict.get? cv p.name).getD Value.none)) =
        ((kwonlyParams s).map Param.name).map
          (fun n => (n, (PyDict.get? cv n).getD Value.none)) := by
      rw [List.map_map]
      rfl
    rw [hcomp, kwonlyParams_names]
    refine map_entry_lookup s.kwonlyargs wv
      (s.args.zip pv ++ varargEntries s.vararg ts) (varkwEntries s.varkw d) cv
      (by rw [hcv]; simp [canonicalVals, List.append_assoc]) hwv.symm hndkw ?_
    intro n hn
    rw [PyDict.keys_append, PyDict.keys_zip _ _ (le_of_eq hpv.symm),
      keys_varargEntries]
    intro hmem
    rcases List.mem_append.1 hmem with hm | hm
    · exact hdisj1 hm (by simp [hn])
    · exact hdisj2 hm (by simp [hn])
  unfold appliedCall
  rw [sigIter_split, rebindLoop_append_run h1]
  have hdisjkz : ∀ k ∈ PyDict.keys d, k ∉ PyDict.keys (s.kwonlyargs.zip wv) := by
    intro k hk
    rw [PyDict.keys_zip _ _ (le_of_eq hwv.symm)]
    exact (hdisj k hk).2.2
  cases hva : s.vararg with
  | none =>
      have htsnil := hts hva
      subst htsnil
      rw [show varargParams s = [] from by simp [varargParams, hva],
        List.nil_append]
      have h3 := rebindLoop_kwonly_empty cv (kwonlyParams s)
        ⟨pv, [], [], [], !(posParams s).isEmpty, s.args⟩
        (kwonlyParams_types s) rfl
        (by simpa [PyDict.keys, kwonlyParams_names] using hndkw)
      rw [hkload, kwonlyParams_names] at h3
      simp only [List.nil_append] at h3
      rw [rebindLoop_append_run h3]
      cases hvk : s.varkw with
      | none =>
          have hdnil := hd hvk
          subst hdnil
          rw [show varkwParams s = [] from by simp [varkwParams, hvk]]
          simp only [rebindLoop, List.isEmpty_nil, if_true]
          have hfin := bindSig_canonical_input pv [] wv [] hnd hpv hwv (fun _ => rfl) (fun _ => rfl)
            (by simp [PyDict.keys])
          rw [hcv]
          simpa using hfin
      | some vk =>
          rw [show varkwParams s = [⟨vk, .keywordVararg, Value.none⟩] from
            by simp [varkwParams, hvk]]
          have hvkget : PyDict.get? cv vk = some (.dict d) := by
            rw [hcv]
            refine get?_canonical_varkw hpv hwv hvk ?_ ?_ ?_
            · intro hm
              exact hdisj1 hm (by simp [hvk, Option.toList])
            · intro heq
              exact hdisj2 (show vk ∈ s.vararg.toList from by
                  simp [heq, Option.toList])
                (by simp [hvk, Option.toList])
            · intro hm
              exact hdisj3 hm (by simp [hvk, Option.toList])
          have hfold : List.foldl (fun acc e => PyDict.insertKV acc e.1 e.2)
              (s.kwonlyargs.zip wv) d = s.kwonlyargs.zip wv ++ d :=
            foldl_insertKV_append d _ hdisjkz hdnd
          simp only [rebindLoop, rebindStep, hvkget, Value.asDictList,
            findDouble, List.find?_nil, Option.map_none, hfold]
          simp only [List.foldl_nil, hfold]
          have hfin := bindSig_canonical_input pv [] wv d hnd hpv hwv (fun _ => rfl)
            (fun h => absurd (h ▸ hvk) (by simp)) hdisj
          rw [← hfold] at hfin
          rw [hcv]
          simpa using hfin
  | some va =>
      rw [show varargParams s = [⟨va, .vararg, Value.none⟩] from
        by simp [varargParams, hva]]
      have hvaget : PyDict.get? cv va = some (.tuple ts) := by
        rw [hcv]
        refine get?_canonical_vararg hpv hva ?_
        intro hm
        exact hdisj1 hm (by simp [hva, Option.toList])
      have h2 : rebindLoop cv [(⟨va, .vararg, Value.none⟩ : Param)]
          ⟨pv, [], [], [], !(posParams s).isEmpty, s.args⟩ =
          .ok ⟨pv ++ ts, [], [], [], !(posParams s).isEmpty, s.args ++ [va]⟩ := by
        simp [rebindLoop, rebindStep, hvaget, Value.asTupleList]
      rw [rebindLoop_append_run h2]
      have h3 := rebindLoop_kwonly_empty cv (kwonlyParams s)
        ⟨pv ++ ts, [], [], [], !(posParams s).isEmpty, s.args ++ [va]⟩
        (kwonlyParams_types s) rfl
        (by simpa [PyDict.keys, kwonlyParams_names] using hndkw)
      rw [hkload, kwonlyParams_names] at h3
      simp only [List.nil_append] at h3
      rw [rebindLoop_append_run h3]
      cases hvk : s.varkw with
      | none =>
          have hdnil := hd hvk
          subst hdnil
          rw [show varkwParams s = [] from by simp [varkwParams, hvk]]
          simp only [rebindLoop, List.isEmpty_nil, if_true]
          have hfin := bindSig_canonical_input pv ts wv [] hnd hpv hwv (fun h => absurd (h ▸ hva) (by simp))
            (fun _ => rfl) (by simp [PyDict.keys])
          rw [hcv]
          simpa using hfin
      | some vk =>
          rw [show varkwParams s = [⟨vk, .keywordVararg, Value.none⟩] from
            by simp [varkwParams, hvk]]
          have hvkget : PyDict.get? cv vk = some (.dict d) := by
            rw [hcv]
            refine get?_canonical_varkw hpv hwv hvk ?_ ?_ ?_
            · intro hm
              exact hdisj1 hm (by simp [hvk, Option.toList])
            · intro heq
              exact hdisj2 (show vk ∈ s.vararg.toList from by
                  simp [heq, Option.toList])
                (by simp [hvk, Option.toList])
            · intro hm
              exact hdisj3 hm (by simp [hvk, Option.toList])
          have hfold : List.foldl (fun acc e => PyDict.insertKV acc e.1 e.2)
              (s.kwonlyargs.zip wv) d = s.kwonlyargs.zip wv ++ d :=
            foldl_insertKV_append d _ hdisjkz hdnd
          simp only [rebindLoop, rebindStep, hvkget, Value.asDictList,
            findDouble, List.find?_nil, Option.map_none, hfold]
          simp only [List.foldl_nil, hfold]
          have hfin := bindSig_canonical_input pv ts wv d hnd hpv hwv (fun h => absurd (h ▸ hva) (by simp))
            (fun h => absurd (h ▸ hvk) (by simp)) hdisj
          rw [← hfold] at hfin
          rw [hcv]
          simpa using hfin

theorem foldl_insertKV_nodup : ∀ (l acc : PyDict),
    (PyDict.keys acc).Nodup →
    (PyDict.keys (l.foldl (fun a e => a.insertKV e.1 e.2) acc)).Nodup := by
  intro l
  induction l with
  | nil => intro acc h; simpa using h
  | cons e rest ih =>
      intro acc h
      simp only [List.foldl_cons]
      exact ih _ (PyDict.keys_nodup_insertKV _ _ h)

theorem rebindStep_tkw_nodup {vals : PyDict} {st : RebindState} {p : Param}
    {st' : RebindState} (h : rebindStep vals st p = .ok st')
    (hnd : (PyDict.keys st.targetKwargs).Nodup) :
    (PyDict.keys st'.targetKwargs).Nodup := by
  cases htp : p.tp <;> simp only [rebindStep, htp] at h <;> repeat' split at h
  all_goals try exact Except.noConfusion h
  all_goals injection h with h
  all_goals subst h
  all_goals first
    | exact hnd
    | exact PyDict.keys_nodup_insertKV _ _ hnd
    | exact foldl_insertKV_nodup _ _ (foldl_insertKV_nodup _ _ hnd)

theorem rebindLoop_tkw_nodup : ∀ (ps : List Param) (vals : PyDict)
    (st st' : RebindState), rebindLoop vals ps st = .ok st' →
    (PyDict.keys st.targetKwargs).Nodup →
    (PyDict.keys st'.targetKwargs).Nodup := by
  intro ps
  induction ps with
  | nil =>
      intro vals st st' h hnd
      simp only [rebindLoop] at h
      injection h with h
      subst h
      exact hnd
  | cons p ps ih =>
      intro vals st st' h hnd
      simp only [rebindLoop] at h
      cases hstep : rebindStep vals st p with
      | error e => rw [hstep] at h; exact Except.noConfusion h
      | ok st₁ =>
          rw [hstep] at h
          exact ih vals st₁ st' h (rebindStep_tkw_nodup hstep hnd)

theorem appliedCall_ok_elim {s : Sig} {vals : PyDict} {ov : List Value}
    {okw vals' : PyDict} (h : appliedCall s vals ov okw = .ok vals') :
    ∃ st, rebindLoop vals (sigIter s) ⟨[], [], ov, okw, false, []⟩ = .ok st ∧
      bindSig s st.targetArgs st.targetKwargs = .ok vals' := by
  unfold appliedCall at h
  cases hL : rebindLoop vals (sigIter s) ⟨[], [], ov, okw, false, []⟩ with
  | error e => rw [hL] at h; exact Except.noConfusion h
  | ok st =>
      rw [hL] at h
      refine ⟨st, rfl, ?_⟩
      split at h
      next e heq => exact Except.noConfusion heq
      next st2 heq =>
        injection heq with heq
        subst heq
        split at h
        · split at h
          · exact h
          · split at h <;> exact Except.noConfusion h
        · exact Except.noConfusion h

/-- C5: re-binding with no override arguments reproduces the same
normalised values; consequently `copy()` with no overrides goes
through the interning key unchanged (returning the very same
instance), and a copy of a copy with no further overrides equals the
first copy. -/
theorem copy_idempotent (s : Sig) (args : List Value) (kwargs vals : PyDict)
    (hnd : (paramNames s).Nodup) (hkwn : (PyDict.keys kwargs).Nodup)
    (hbind : bindSig s args kwargs = .ok vals) :
    appliedCall s vals [] [] = .ok vals ∧
    ∀ (ov : List Value) (okw vals' : PyDict),
      appliedCall s vals ov okw = .ok vals' →
      appliedCall s vals' [] [] = .ok vals' := by
  have hgood := bind_good hnd hkwn hbind
  refine ⟨appliedCall_empty hnd hgood, ?_⟩
  intro ov okw vals' h
  obtain ⟨st, hL, hB⟩ := appliedCall_ok_elim h
  have htknd : (PyDict.keys st.targetKwargs).Nodup :=
    rebindLoop_tkw_nodup _ _ _ _ hL (by simp [PyDict.keys])
  exact appliedCall_empty hnd (bind_good hnd htknd hB)

/-- Witness for C5 at `f(a, b=1, *c, **d)` applied to `(1, 2, 3, e=4)`
and overridden with `b=5`. -/
theorem copy_idempotent_witness :
    appliedCall sigAB
        [("a", .int 1), ("b", .int 2), ("c", .tuple [.int 3]),
         ("d", .dict [("e", .int 4)])] [] [] =
      .ok [("a", .int 1), ("b", .int 2), ("c", .tuple [.int 3]),
           ("d", .dict [("e", .int 4)])] ∧
    appliedCall sigAB
        [("a", .int 1), ("b", .int 5), ("c", .tuple [.int 3]),
         ("d", .dict [("e", .int 4)])] [] [] =
      .ok [("a", .int 1), ("b", .int 5), ("c", .tuple [.int 3]),
           ("d", .dict [("e", .int 4)])] :=
  ⟨(copy_idempotent sigAB [.int 1, .int 2, .int 3] [("e", .int 4)] _
      (by decide) (by decide) rfl).1,
   (copy_idempotent sigAB [.int 1, .int 2, .int 3] [("e", .int 4)] _
      (by decide) (by decide) rfl).2 [] [("b", .int 5)] _ rfl⟩

namespace PyDict

theorem insertKV_get?_self (l : PyDict) (k : String) (v : Value) :
    get? (insertKV l k v) k = some v := by
  induction l with
  | nil => simp [insertKV, get?]
  | cons e rest ih =>
      obtain ⟨k', w⟩ := e
      by_cases hk : k' = k <;> simp [insertKV, get?, hk, ih]

theorem insertKV_get?_ne {l : PyDict} {k' k : String} (v : Value)
    (h : k' ≠ k) : get? (insertKV l k' v) k = get? l k := by
  induction l with
  | nil => simp [insertKV, get?, h]
  | cons e rest ih =>
      obtain ⟨k₀, w⟩ := e
      by_cases hk : k₀ = k' <;> by_cases hK : k₀ = k <;>
        simp_all [insertKV, get?]

end PyDict

theorem foldl_insertKV_get?_not_mem : ∀ (l acc : PyDict) (k : String),
    k ∉ PyDict.keys l →
    PyDict.get? (l.foldl (fun a e => a.insertKV e.1 e.2) acc) k =
      PyDict.get? acc k := by
  intro l
  induction l with
  | nil => intro acc k h; rfl
  | cons e rest ih =>
      intro acc k h
      obtain ⟨k₀, w⟩ := e
      simp only [PyDict.keys, List.map_cons, List.mem_cons, not_or] at h
      simp only [List.foldl_cons]
      rw [ih _ k (by simpa [PyDict.keys] using h.2)]
      exact PyDict.insertKV_get?_ne _ (fun hh => h.1 hh.symm)

theorem foldl_insertKV_get?_mem : ∀ (l acc : PyDict) (k : String) (w : Value),
    (PyDict.keys l).Nodup → PyDict.get? l k = some w →
    PyDict.get? (l.foldl (fun a e => a.insertKV e.1 e.2) acc) k = some w := by
  intro l
  induction l with
  | nil => intro acc k w hnd h; simp [PyDict.get?] at h
  | cons e rest ih =>
      intro acc k w hnd h
      obtain ⟨k₀, w₀⟩ := e
      simp only [PyDict.keys, List.map_cons, List.nodup_cons] at hnd
      by_cases hk : k₀ = k
      · subst hk
        simp only [PyDict.get?, if_pos rfl] at h
        injection h with h
        subst h
        simp only [List.foldl_cons]
        rw [foldl_insertKV_get?_not_mem rest _ k₀
          (by simpa [PyDict.keys] using hnd.1)]
        exact PyDict.insertKV_get?_self _ _ _
      · simp only [PyDict.get?, if_neg hk] at h
        simp only [List.foldl_cons]
        exact ih _ k w (by simpa [PyDict.keys] using hnd.2) h

theorem posTVals_length (vals : PyDict) : ∀ (ns : List String)
    (oargs : List Value) (okw : PyDict),
    (posTVals vals ns oargs okw).length = ns.length := by
  intro ns
  induction ns with
  | nil => intro oargs okw; rfl
  | cons n ns ih =>
      intro oargs okw
      cases oargs with
      | nil => simp [posTVals, ih]
      | cons a oargs => simp [posTVals, ih]

theorem kwTVals_length (vals : PyDict) : ∀ (ns : List String) (okw : PyDict),
    (kwTVals vals ns okw).length = ns.length := by
  intro ns
  induction ns with
  | nil => intro okw; rfl
  | cons n ns ih => intro okw; simp [kwTVals, ih]

theorem posRemKw_sublist : ∀ (ns : List String) (oargs : List Value)
    (okw : PyDict), (posRemKw ns oargs okw).Sublist okw := by
  intro ns
  induction ns with
  | nil => intro oargs okw; simp [posRemKw]
  | cons n ns ih =>
      intro oargs okw
      cases oargs with
      | nil => exact (ih [] _).trans (PyDict.pop_sublist _ _)
      | cons a oargs => exact ih oargs okw

theorem kwRemKw_sublist : ∀ (ns : List String) (okw : PyDict),
    (kwRemKw ns okw).Sublist okw := by
  intro ns
  induction ns with
  | nil => intro okw; simp [kwRemKw]
  | cons n ns ih => intro okw; exact (ih _).trans (PyDict.pop_sublist _ _)

theorem posRemKw_get?_ne : ∀ (ns : List String) (oargs : List Value)
    (okw : PyDict) (k : String), k ∉ ns →
    PyDict.get? (posRemKw ns oargs okw) k = PyDict.get? okw k := by
  intro ns
  induction ns with
  | nil => intro oargs okw k h; rfl
  | cons n ns ih =>
      intro oargs okw k h
      simp only [List.mem_cons, not_or] at h
      cases oargs with
      | nil =>
          rw [show posRemKw (n :: ns) [] okw = posRemKw ns [] (okw.pop n) from rfl]
          rw [ih [] _ k h.2, PyDict.pop_get?_ne h.1]
      | cons a oargs => exact ih oargs okw k h.2

theorem kwRemKw_get?_ne : ∀ (ns : List String) (okw : PyDict) (k : String),
    k ∉ ns → PyDict.get? (kwRemKw ns okw) k = PyDict.get? okw k := by
  intro ns
  induction ns with
  | nil => intro okw k h; rfl
  | cons n ns ih =>
      intro okw k h
      simp only [List.mem_cons, not_or] at h
      rw [show kwRemKw (n :: ns) okw = kwRemKw ns (okw.pop n) from rfl]
      rw [ih _ k h.2, PyDict.pop_get?_ne h.1]

theorem sublist_get?_none {l₁ l₂ : PyDict} (hsub : l₁.Sublist l₂) {k : String}
    (h : PyDict.get? l₂ k = Option.none) : PyDict.get? l₁ k = Option.none := by
  rw [PyDict.get?_eq_none] at h ⊢
  exact fun hmem => h ((hsub.map Prod.fst).mem hmem)

theorem rebindLoop_pos_run (vals : PyDict) : ∀ (ps : List Param)
    (st : RebindState),
    (∀ p ∈ ps, p.tp = .argument ∨ p.tp = .argumentWithDefault) →
    (st.hadKeyword = false ∨ st.args = []) →
    ∃ b, rebindLoop vals ps st = .ok
      { st with
        targetArgs := st.targetArgs ++
          posTVals vals (ps.map Param.name) st.args st.kwargs,
        args := st.args.drop ps.length,
        kwargs := posRemKw (ps.map Param.name) st.args st.kwargs,
        hadKeyword := b,
        passed := st.passed ++ ps.map Param.name } := by
  intro ps
  induction ps with
  | nil =>
      intro st hps hhk
      exact ⟨st.hadKeyword, by simp [rebindLoop, posTVals, posRemKw]⟩
  | cons p ps ih =>
      intro st hps hhk
      cases hargs : st.args with
      | cons a rest =>
          have hhk' : st.hadKeyword = false := by
            rcases hhk with h | h
            · exact h
            · rw [hargs] at h; exact absurd h (by simp)
          have hstep : rebindStep vals st p = .ok
              { st with targetArgs := st.targetArgs ++ [a], args := rest,
                        passed := st.passed ++ [p.name] } := by
            rcases hps p (List.mem_cons_self _ _) with htp | htp <;>
              simp [rebindStep, htp, hhk', hargs]
          simp only [rebindLoop, hstep]
          obtain ⟨b, hrec⟩ := ih
            { st with targetArgs := st.targetArgs ++ [a], args := rest,
                      passed := st.passed ++ [p.name] }
            (fun q hq => hps q (List.mem_cons_of_mem _ hq)) (Or.inl hhk')
          refine ⟨b, ?_⟩
          rw [hrec]
          simp [posTVals, posRemKw, hargs, List.append_assoc]
      | nil =>
          cases hget : PyDict.get? st.kwargs p.name with
          | some w =>
              have hstep : rebindStep vals st p = .ok
                  { st with targetArgs := st.targetArgs ++ [w],
                            kwargs := st.kwargs.pop p.name,
                            hadKeyword := true,
                            passed := st.passed ++ [p.name] } := by
                cases hhk' : st.hadKeyword <;>
                  rcases hps p (List.mem_cons_self _ _) with htp | htp <;>
                  simp [rebindStep, htp, hhk', hargs, hget]
              simp only [rebindLoop, hstep]
              obtain ⟨b, hrec⟩ := ih
                { st with targetArgs := st.targetArgs ++ [w],
                          kwargs := st.kwargs.pop p.name,
                          hadKeyword := true,
                          passed := st.passed ++ [p.name] }
                (fun q hq => hps q (List.mem_cons_of_mem _ hq))
                (Or.inr (by simp [hargs]))
              refine ⟨b, ?_⟩
              rw [hrec]
              simp [posTVals, posRemKw, hargs, hget, List.append_assoc]
          | none =>
              have hstep : rebindStep vals st p = .ok
                  { st with targetArgs := st.targetArgs ++
                              [(PyDict.get? vals p.name).getD Value.none],
                            hadKeyword := true,
                            passed := st.passed ++ [p.name] } := by
                cases hhk' : st.hadKeyword <;>
                  rcases hps p (List.mem_cons_self _ _) with htp | htp <;>
                  simp [rebindStep, htp, hhk', hargs, hget]
              simp only [rebindLoop, hstep]
              obtain ⟨b, hrec⟩ := ih
                { st with targetArgs := st.targetArgs ++
                            [(PyDict.get? vals p.name).getD Value.none],
                          hadKeyword := true,
                          passed := st.passed ++ [p.name] }
                (fun q hq => hps q (List.mem_cons_of_mem _ hq))
                (Or.inr (by simp [hargs]))
              refine ⟨b, ?_⟩
              rw [hrec]
              simp [posTVals, posRemKw, hargs, hget, List.append_assoc,
                PyDict.pop_of_not_mem (PyDict.get?_eq_none.1 hget)]

theorem rebindLoop_kwonly_run (vals : PyDict) : ∀ (ps : List Param)
    (st : RebindState),
    (∀ p ∈ ps, p.tp = .keywordOnly) →
    (PyDict.keys st.targetKwargs ++ ps.map Param.name).Nodup →
    rebindLoop vals ps st = .ok
      { st with
        targetKwargs := st.targetKwargs ++
          (ps.map Param.name).zip (kwTVals vals (ps.map Param.name) st.kwargs),
        kwargs := kwRemKw (ps.map Param.name) st.kwargs,
        passed := st.passed ++ ps.map Param.name } := by
  intro ps
  induction ps with
  | nil =>
      intro st hps hnd
      simp [rebindLoop, kwTVals, kwRemKw]
  | cons p ps ih =>
      intro st hps hnd
      have hfresh : p.name ∉ PyDict.keys st.targetKwargs := by
        intro hmem
        exact (List.nodup_append.1 hnd).2.2 hmem (List.mem_cons_self _ _)
      have hnd2 : ∀ (v : Value),
          (PyDict.keys (st.targetKwargs ++ [(p.name, v)]) ++
            ps.map Param.name).Nodup := by
        intro v
        rw [PyDict.keys_append]
        have : PyDict.keys [(p.name, v)] = [p.name] := rfl
        rw [this]
        simpa [List.append_assoc] using hnd
      cases hget : PyDict.get? st.kwargs p.name with
      | some w =>
          have hstep : rebindStep vals st p = .ok
              { st with targetKwargs := st.targetKwargs ++ [(p.name, w)],
                        kwargs := st.kwargs.pop p.name,
                        passed := st.passed ++ [p.name] } := by
            simp [rebindStep, hps p (List.mem_cons_self _ _), hget,
              PyDict.insertKV_of_not_mem _ hfresh]
          simp only [rebindLoop, hstep]
          rw [ih
            { st with targetKwargs := st.targetKwargs ++ [(p.name, w)],
                      kwargs := st.kwargs.pop p.name,
                      passed := st.passed ++ [p.name] }
            (fun q hq => hps q (List.mem_cons_of_mem _ hq)) (hnd2 w)]
          simp [kwTVals, kwRemKw, hget, List.append_assoc, List.zip]
      | none =>
          have hstep : rebindStep vals st p = .ok
              { st with targetKwargs := st.targetKwargs ++
                          [(p.name, (PyDict.get? vals p.name).getD Value.none)],
                        passed := st.passed ++ [p.name] } := by
            simp [rebindStep, hps p (List.mem_cons_self _ _), hget,
              PyDict.insertKV_of_not_mem _ hfresh]
          simp only [rebindLoop, hstep]
          rw [ih
            { st with targetKwargs := st.targetKwargs ++
                        [(p.name, (PyDict.get? vals p.name).getD Value.none)],
                      passed := st.passed ++ [p.name] }
            (fun q hq => hps q (List.mem_cons_of_mem _ hq)) (hnd2 _)]
          simp [kwTVals, kwRemKw, hget, List.append_assoc, List.zip,
            PyDict.pop_of_not_mem (PyDict.get?_eq_none.1 hget)]

theorem insertKV_append_left : ∀ (acc₁ acc₂ : PyDict) (k : String) (v : Value),
    k ∉ PyDict.keys acc₁ →
    PyDict.insertKV (acc₁ ++ acc₂) k v = acc₁ ++ PyDict.insertKV acc₂ k v := by
  intro acc₁
  induction acc₁ with
  | nil => intro acc₂ k v h; rfl
  | cons e rest ih =>
      intro acc₂ k v h
      obtain ⟨k', w⟩ := e
      simp only [PyDict.keys, List.map_cons, List.mem_cons, not_or] at h
      show PyDict.insertKV ((k', w) :: (rest ++ acc₂)) k v = _
      rw [show PyDict.insertKV ((k', w) :: (rest ++ acc₂)) k v =
        (k', w) :: PyDict.insertKV (rest ++ acc₂) k v from by
          simp [PyDict.insertKV, Ne.symm h.1]]
      rw [ih acc₂ k v (by simpa [PyDict.keys] using h.2)]
      rfl

theorem foldl_insertKV_append_left : ∀ (l : PyDict) (acc₁ acc₂ : PyDict),
    (∀ k ∈ PyDict.keys l, k ∉ PyDict.keys acc₁) →
    l.foldl (fun a e => a.insertKV e.1 e.2) (acc₁ ++ acc₂) =
      acc₁ ++ l.foldl (fun a e => a.insertKV e.1 e.2) acc₂ := by
  intro l
  induction l with
  | nil => intro acc₁ acc₂ h; rfl
  | cons e rest ih =>
      intro acc₁ acc₂ h
      obtain ⟨k, v⟩ := e
      simp only [List.foldl_cons]
      rw [insertKV_append_left acc₁ acc₂ k v (h k (by simp [PyDict.keys]))]
      refine ih acc₁ _ ?_
      intro k' hk'
      refine h k' ?_
      simp only [PyDict.keys, List.map_cons, List.mem_cons]
      exact Or.inr (by simpa [PyDict.keys] using hk')

theorem get?_zip_posTVals (vals : PyDict) : ∀ (ns : List String)
    (oargs : List Value) (okw rest : PyDict) (n : String),
    ns.Nodup → n ∈ ns.drop oargs.length → PyDict.get? okw n = Option.none →
    PyDict.get? (ns.zip (posTVals vals ns oargs okw) ++ rest) n =
      some ((PyDict.get? vals n).getD Value.none) := by
  intro ns
  induction ns with
  | nil => intro oargs okw rest n hnd hmem hok; simp at hmem
  | cons m ns ih =>
      intro oargs okw rest n hnd hmem hok
      cases oargs with
      | cons a oargs =>
          simp only [List.length_cons, List.drop_succ_cons] at hmem
          have hne : m ≠ n := by
            intro hh
            subst hh
            exact (List.nodup_cons.1 hnd).1 (List.mem_of_mem_drop hmem)
          rw [show posTVals vals (m :: ns) (a :: oargs) okw =
            a :: posTVals vals ns oargs okw from rfl]
          rw [show (m :: ns).zip (a :: posTVals vals ns oargs okw) =
            (m, a) :: ns.zip (posTVals vals ns oargs okw) from rfl]
          rw [show PyDict.get? (((m, a) :: ns.zip (posTVals vals ns oargs okw))
              ++ rest) n =
            PyDict.get? (ns.zip (posTVals vals ns oargs okw) ++ rest) n from by
              simp [PyDict.get?, hne]]
          exact ih oargs okw rest n (List.nodup_cons.1 hnd).2 hmem hok
      | nil =>
          simp only [List.length_nil, List.drop_zero] at hmem
          rcases List.mem_cons.1 hmem with hh | hh
          · subst hh
            rw [show posTVals vals (n :: ns) [] okw =
              ((PyDict.get? vals n).getD Value.none)
                :: posTVals vals ns [] (okw.pop n) from by
                simp [posTVals, hok]]
            simp [PyDict.get?, List.zip]
          · have hne : m ≠ n := by
              intro h2
              subst h2
              exact (List.nodup_cons.1 hnd).1 hh
            rw [show posTVals vals (m :: ns) [] okw =
              (match PyDict.get? okw m with
               | some w => w
               | Option.none => (PyDict.get? vals m).getD Value.none)
                :: posTVals vals ns [] (okw.pop m) from rfl]
            rw [show ((m :: ns).zip ((match PyDict.get? okw m with
               | some w => w
               | Option.none => (PyDict.get? vals m).getD Value.none)
                :: posTVals vals ns [] (okw.pop m)) ++ rest) =
              ((m, (match PyDict.get? okw m with
               | some w => w
               | Option.none => (PyDict.get? vals m).getD Value.none))
                :: (ns.zip (posTVals vals ns [] (okw.pop m)) ++ rest)) from by
                simp [List.zip]]
            rw [show PyDict.get? ((m, (match PyDict.get? okw m with
               | some w => w
               | Option.none => (PyDict.get? vals m).getD Value.none))
                :: (ns.zip (posTVals vals ns [] (okw.pop m)) ++ rest)) n =
              PyDict.get? (ns.zip (posTVals vals ns [] (okw.pop m)) ++ rest) n
              from by simp [PyDict.get?, hne]]
            refine ih [] (okw.pop m) rest n (List.nodup_cons.1 hnd).2
              (by simpa using hh) ?_
            rw [PyDict.pop_get?_ne (fun h2 => hne h2.symm)]
            exact hok

theorem get?_zip_kwTVals (vals : PyDict) : ∀ (ns : List String)
    (okw rest : PyDict) (k : String),
    ns.Nodup → k ∈ ns → PyDict.get? okw k = Option.none →
    PyDict.get? (ns.zip (kwTVals vals ns okw) ++ rest) k =
      some ((PyDict.get? vals k).getD Value.none) := by
  intro ns
  induction ns with
  | nil => intro okw rest k hnd hmem hok; simp at hmem
  | cons m ns ih =>
      intro okw rest k hnd hmem hok
      rcases List.mem_cons.1 hmem with hh | hh
      · subst hh
        rw [show kwTVals vals (k :: ns) okw =
          ((PyDict.get? vals k).getD Value.none)
            :: kwTVals vals ns (okw.pop k) from by simp [kwTVals, hok]]
        simp [PyDict.get?, List.zip]
      · have hne : m ≠ k := by
          intro h2
          subst h2
          exact (List.nodup_cons.1 hnd).1 hh
        rw [show kwTVals vals (m :: ns) okw =
          (match PyDict.get? okw m with
           | some w => w
           | Option.none => (PyDict.get? vals m).getD Value.none)
            :: kwTVals vals ns (okw.pop m) from rfl]
        rw [show ((m :: ns).zip ((match PyDict.get? okw m with
           | some w => w
           | Option.none => (PyDict.get? vals m).getD Value.none)
            :: kwTVals vals ns (okw.pop m)) ++ rest) =
          ((m, (match PyDict.get? okw m with
           | some w => w
           | Option.none => (PyDict.get? vals m).getD Value.none))
            :: (ns.zip (kwTVals vals ns (okw.pop m)) ++ rest)) from by
            simp [List.zip]]
        rw [show PyDict.get? ((m, (match PyDict.get? okw m with
           | some w => w
           | Option.none => (PyDict.get? vals m).getD Value.none))
            :: (ns.zip (kwTVals vals ns (okw.pop m)) ++ rest)) k =
          PyDict.get? (ns.zip (kwTVals vals ns (okw.pop m)) ++ rest) k
          from by simp [PyDict.get?, hne]]
        refine ih (okw.pop m) rest k (List.nodup_cons.1 hnd).2 hh ?_
        rw [PyDict.pop_get?_ne (fun h2 => hne h2.symm)]
        exact hok

theorem mem_keys_foldl_insertKV : ∀ (l acc : PyDict) (k : String),
    k ∈ PyDict.keys (l.foldl (fun a e => a.insertKV e.1 e.2) acc) →
    k ∈ PyDict.keys acc ∨ k ∈ PyDict.keys l := by
  intro l
  induction l with
  | nil => intro acc k h; exact Or.inl h
  | cons e rest ih =>
      intro acc k h
      obtain ⟨k₀, v₀⟩ := e
      simp only [List.foldl_cons] at h
      rcases ih _ k h with h1 | h1
      · rw [PyDict.keys_insertKV] at h1
        split at h1
        · exact Or.inl h1
        · rcases List.mem_append.1 h1 with h2 | h2
          · exact Or.inl h2
          · simp only [List.mem_singleton] at h2
            subst h2
            exact Or.inr (by simp [PyDict.keys])
      · exact Or.inr (by simp [PyDict.keys] at h1 ⊢; exact Or.inr h1)

theorem appliedCall_ok_elim2 {s : Sig} {vals : PyDict} {ov : List Value}
    {okw vals' : PyDict} (h : appliedCall s vals ov okw = .ok vals') :
    ∃ st, rebindLoop vals (sigIter s) ⟨[], [], ov, okw, false, []⟩ = .ok st ∧
      st.args = [] ∧ st.kwargs = [] ∧
      bindSig s st.targetArgs st.targetKwargs = .ok vals' := by
  unfold appliedCall at h
  cases hL : rebindLoop vals (sigIter s) ⟨[], [], ov, okw, false, []⟩ with
  | error e => rw [hL] at h; exact Except.noConfusion h
  | ok st =>
      rw [hL] at h
      refine ⟨st, rfl, ?_⟩
      split at h
      next e heq => exact Except.noConfusion heq
      next st2 heq =>
        injection heq with heq
        subst heq
        split at h
        next hargs =>
          split at h
          next hkw =>
            exact ⟨List.isEmpty_iff.1 hargs, List.isEmpty_iff.1 hkw, h⟩
          next => split at h <;> exact Except.noConfusion h
        next => exact Except.noConfusion h

theorem appliedCall_canonical_inv {s : Sig} {ov : List Value}
    {okw vals' : PyDict} (pv ts wv : List Value) (d : PyDict)
    (hnd : (paramNames s).Nodup)
    (hpv : pv.length = s.args.length) (hwv : wv.length = s.kwonlyargs.length)
    (hts : s.vararg = Option.none → ts = [])
    (hd : s.varkw = Option.none → d = [])
    (hdisj : ∀ k ∈ PyDict.keys d,
      k ∉ s.args ∧ s.vararg ≠ some k ∧ k ∉ s.kwonlyargs)
    (hdnd : (PyDict.keys d).Nodup)
    (h : appliedCall s (canonicalVals s pv ts wv d) ov okw = .ok vals') :
    vals' = canonicalVals s
        (posTVals (canonicalVals s pv ts wv d) s.args ov okw)
        (if s.args.length < ov.length then ov.drop s.args.length else ts)
        (kwTVals (canonicalVals s pv ts wv d) s.kwonlyargs
          (posRemKw s.args ov okw))
        (mergeKV d (kwRemKw s.kwonlyargs (posRemKw s.args ov okw))) ∧
    (∀ k ∈ PyDict.keys (kwRemKw s.kwonlyargs (posRemKw s.args ov okw)),
      k ∉ s.args ∧ s.vararg ≠ some k ∧ k ∉ s.kwonlyargs) := by
  have hnd' : (s.args ++ (s.vararg.toList ++ (s.kwonlyargs ++ s.varkw.toList))).Nodup := by
    rw [← paramNames_eq]; exact hnd
  have hndargs : s.args.Nodup := (List.nodup_append.1 hnd').1
  have hdisj1 : s.args.Disjoint (s.vararg.toList ++ (s.kwonlyargs ++ s.varkw.toList)) :=
    (List.nodup_append.1 hnd').2.2
  have hnd2 : (s.vararg.toList ++ (s.kwonlyargs ++ s.varkw.toList)).Nodup :=
    (List.nodup_append.1 hnd').2.1
  have hdisj2 : (s.vararg.toList).Disjoint (s.kwonlyargs ++ s.varkw.toList) :=
    (List.nodup_append.1 hnd2).2.2
  have hnd3 : (s.kwonlyargs ++ s.varkw.toList).Nodup :=
    (List.nodup_append.1 hnd2).2.1
  have hndkw : s.kwonlyargs.Nodup := (List.nodup_append.1 hnd3).1
  have hdisj3 : s.kwonlyargs.Disjoint s.varkw.toList :=
    (List.nodup_append.1 hnd3).2.2
  set cv := canonicalVals s pv ts wv d with hcv
  have hpv2 : (posTVals cv s.args ov okw).length = s.args.length :=
    posTVals_length cv s.args ov okw
  have hwv2 : (kwTVals cv s.kwonlyargs (posRemKw s.args ov okw)).length =
      s.kwonlyargs.length :=
    kwTVals_length cv s.kwonlyargs (posRemKw s.args ov okw)
  obtain ⟨b, h1⟩ := rebindLoop_pos_run cv (posParams s)
    ⟨[], [], ov, okw, false, []⟩ (posParams_types s) (Or.inl rfl)
  rw [posParams_names, posParams_length] at h1
  simp only [List.nil_append] at h1
  obtain ⟨stE, hL, hargsE, hkwE, hB⟩ := appliedCall_ok_elim2 h
  rw [sigIter_split, rebindLoop_append_run h1] at hL
  cases hva : s.vararg with
  | none =>
      rw [show varargParams s = [] from by simp [varargParams, hva],
        List.nil_append] at hL
      have h3 := rebindLoop_kwonly_run cv (kwonlyParams s)
        ⟨posTVals cv s.args ov okw, [], ov.drop s.args.length,
          posRemKw s.args ov okw, b, s.args⟩
        (kwonlyParams_types s)
        (by simpa [PyDict.keys, kwonlyParams_names] using hndkw)
      rw [kwonlyParams_names] at h3
      simp only [List.nil_append] at h3
      rw [rebindLoop_append_run h3] at hL
      cases hvk : s.varkw with
      | none =>
          rw [show varkwParams s = [] from by simp [varkwParams, hvk]] at hL
          simp only [rebindLoop] at hL
          injection hL with hst
          subst hst
          have hdrop : ov.drop s.args.length = [] := hargsE
          have hkw3 : kwRemKw s.kwonlyargs (posRemKw s.args ov okw) = [] := hkwE
          have hfin := bindSig_canonical_input
            (posTVals cv s.args ov okw) []
            (kwTVals cv s.kwonlyargs (posRemKw s.args ov okw)) []
            hnd hpv2 hwv2 (fun _ => rfl) (fun _ => rfl) (by simp [PyDict.keys])
          simp only [List.append_nil] at hfin
          have hveq := hfin.symm.trans hB
          injection hveq with hveq
          refine ⟨?_, ?_⟩
          · rw [← hveq]
            simp [canonicalVals, varargEntries, varkwEntries, hva, hvk]
          · rw [hkw3]
            simp [PyDict.keys]
      | some vk =>
          rw [show varkwParams s = [⟨vk, .keywordVararg, Value.none⟩] from
            by simp [varkwParams, hvk]] at hL
          have hvkget : PyDict.get? cv vk = some (.dict d) := by
            rw [hcv]
            refine get?_canonical_varkw hpv hwv hvk ?_ ?_ ?_
            · intro hm
              exact hdisj1 hm (by simp [hvk, Option.toList])
            · intro heq
              exact hdisj2 (show vk ∈ s.vararg.toList from by
                  simp [heq, Option.toList])
                (by simp [hvk, Option.toList])
            · intro hm
              exact hdisj3 hm (by simp [hvk, Option.toList])
          have hdisjkz : ∀ k ∈ PyDict.keys d, k ∉ PyDict.keys
              (s.kwonlyargs.zip
                (kwTVals cv s.kwonlyargs (posRemKw s.args ov okw))) := by
            intro k hk
            rw [PyDict.keys_zip _ _ (le_of_eq hwv2.symm)]
            exact (hdisj k hk).2.2
          have hfold : List.foldl (fun acc e => PyDict.insertKV acc e.1 e.2)
              (s.kwonlyargs.zip
                (kwTVals cv s.kwonlyargs (posRemKw s.args ov okw))) d =
              s.kwonlyargs.zip
                (kwTVals cv s.kwonlyargs (posRemKw s.args ov okw)) ++ d :=
            foldl_insertKV_append d _ hdisjkz hdnd
          cases hfd : findDouble (kwRemKw s.kwonlyargs (posRemKw s.args ov okw))
              (s.args ++ s.kwonlyargs) with
          | some k =>
              have hLerr : rebindLoop cv [(⟨vk, .keywordVararg, Value.none⟩ : Param)]
                  ⟨posTVals cv s.args ov okw,
                    s.kwonlyargs.zip
                      (kwTVals cv s.kwonlyargs (posRemKw s.args ov okw)),
                    ov.drop s.args.length,
                    kwRemKw s.kwonlyargs (posRemKw s.args ov okw), b,
                    s.args ++ s.kwonlyargs⟩ =
                  .error (.doubleArgumentValue k) := by
                simp [rebindLoop, rebindStep, hvkget, Value.asDictList, hfd]
              rw [hLerr] at hL
              exact Except.noConfusion hL
          | none =>
              have hfdnone := findDouble_eq_none.1 hfd
              have hfr : ∀ k ∈ PyDict.keys
                  (kwRemKw s.kwonlyargs (posRemKw s.args ov okw)),
                  k ∉ PyDict.keys (s.kwonlyargs.zip
                    (kwTVals cv s.kwonlyargs (posRemKw s.args ov okw))) := by
                intro k hk
                rw [PyDict.keys_zip _ _ (le_of_eq hwv2.symm)]
                intro hm
                exact hfdnone k hk (List.mem_append_right _ hm)
              have hfold2 := foldl_insertKV_append_left
                (kwRemKw s.kwonlyargs (posRemKw s.args ov okw))
                (s.kwonlyargs.zip
                  (kwTVals cv s.kwonlyargs (posRemKw s.args ov okw))) d hfr
              have hL2 : rebindLoop cv [(⟨vk, .keywordVararg, Value.none⟩ : Param)]
                  ⟨posTVals cv s.args ov okw,
                    s.kwonlyargs.zip
                      (kwTVals cv s.kwonlyargs (posRemKw s.args ov okw)),
                    ov.drop s.args.length,
                    kwRemKw s.kwonlyargs (posRemKw s.args ov okw), b,
                    s.args ++ s.kwonlyargs⟩ =
                  .ok ⟨posTVals cv s.args ov okw,
                    s.kwonlyargs.zip
                      (kwTVals cv s.kwonlyargs (posRemKw s.args ov okw)) ++
                      (kwRemKw s.kwonlyargs (posRemKw s.args ov okw)).foldl
                        (fun acc e => PyDict.insertKV acc e.1 e.2) d,
                    ov.drop s.args.length, [], b,
                    s.args ++ s.kwonlyargs ++ [vk]⟩ := by
                simp [rebindLoop, rebindStep, hvkget, Value.asDictList, hfd,
                  hfold, hfold2]
              rw [hL2] at hL
              injection hL with hst
              subst hst
              have hdrop : ov.drop s.args.length = [] := hargsE
              have hdisjm : ∀ k ∈ PyDict.keys
                  (mergeKV d (kwRemKw s.kwonlyargs (posRemKw s.args ov okw))),
                  k ∉ s.args ∧ s.vararg ≠ some k ∧ k ∉ s.kwonlyargs := by
                intro k hk
                rcases mem_keys_foldl_insertKV _ _ _ hk with h1 | h1
                · exact hdisj k h1
                · have hnp := hfdnone k h1
                  exact ⟨fun hm => hnp (List.mem_append_left _ hm),
                    by simp [hva],
                    fun hm => hnp (List.mem_append_right _ hm)⟩
              have hfin := bindSig_canonical_input
                (posTVals cv s.args ov okw) []
                (kwTVals cv s.kwonlyargs (posRemKw s.args ov okw))
                (mergeKV d (kwRemKw s.kwonlyargs (posRemKw s.args ov okw)))
                hnd hpv2 hwv2 (fun _ => rfl)
                (fun hh => absurd (hh ▸ hvk) (by simp)) hdisjm
              simp only [List.append_nil] at hfin
              have hveq := hfin.symm.trans hB
              injection hveq with hveq
              refine ⟨?_, ?_⟩
              · rw [← hveq]
                simp [canonicalVals, varargEntries, hva]
              · intro k hk
                have hnp := hfdnone k hk
                exact ⟨fun hm => hnp (List.mem_append_left _ hm),
                  by simp [hva],
                  fun hm => hnp (List.mem_append_right _ hm)⟩
  | some va =>
      rw [show varargParams s = [⟨va, .vararg, Value.none⟩] from
        by simp [varargParams, hva]] at hL
      have hvaget : PyDict.get? cv va = some (.tuple ts) := by
        rw [hcv]
        refine get?_canonical_vararg hpv hva ?_
        intro hm
        exact hdisj1 hm (by simp [hva, Option.toList])
      have hstep : rebindLoop cv [(⟨va, .vararg, Value.none⟩ : Param)]
          ⟨posTVals cv s.args ov okw, [], ov.drop s.args.length,
            posRemKw s.args ov okw, b, s.args⟩ =
          .ok ⟨posTVals cv s.args ov okw ++
              (if s.args.length < ov.length then ov.drop s.args.length else ts),
            [], [], posRemKw s.args ov okw, b, s.args ++ [va]⟩ := by
        by_cases hlt : s.args.length < ov.length
        · have hne : ¬(ov.drop s.args.length = []) := by
            rw [List.drop_eq_nil_iff_le]
            exact not_le.2 hlt
          have hie : (ov.drop s.args.length).isEmpty = false := by
            cases hdd : ov.drop s.args.length with
            | nil => exact absurd hdd hne
            | cons a l => rfl
          rw [if_pos hlt]
          simp [rebindLoop, rebindStep, hie]
        · have hdrop : ov.drop s.args.length = [] :=
            List.drop_eq_nil_iff_le.2 (Nat.not_lt.1 hlt)
          rw [if_neg hlt, hdrop]
          simp [rebindLoop, rebindStep, hvaget, Value.asTupleList]
      rw [rebindLoop_append_run hstep] at hL
      have h3 := rebindLoop_kwonly_run cv (kwonlyParams s)
        ⟨posTVals cv s.args ov okw ++
            (if s.args.length < ov.length then ov.drop s.args.length else ts),
          [], [], posRemKw s.args ov okw, b, s.args ++ [va]⟩
        (kwonlyParams_types s)
        (by simpa [PyDict.keys, kwonlyParams_names] using hndkw)
      rw [kwonlyParams_names] at h3
      simp only [List.nil_append] at h3
      rw [rebindLoop_append_run h3] at hL
      cases hvk : s.varkw with
      | none =>
          rw [show varkwParams s = [] from by simp [varkwParams, hvk]] at hL
          simp only [rebindLoop] at hL
          injection hL with hst
          subst hst
          have hkw3 : kwRemKw s.kwonlyargs (posRemKw s.args ov okw) = [] := hkwE
          have hfin := bindSig_canonical_input
            (posTVals cv s.args ov okw)
            (if s.args.length < ov.length then ov.drop s.args.length else ts)
            (kwTVals cv s.kwonlyargs (posRemKw s.args ov okw)) []
            hnd hpv2 hwv2 (fun hh => absurd (hh ▸ hva) (by simp))
            (fun _ => rfl) (by simp [PyDict.keys])
          simp only [List.append_nil] at hfin
          have hveq := hfin.symm.trans hB
          injection hveq with hveq
          refine ⟨?_, ?_⟩
          · rw [← hveq]
            simp [canonicalVals, varkwEntries, hvk]
          · rw [hkw3]
            simp [PyDict.keys]
      | some vk =>
          rw [show varkwParams s = [⟨vk, .keywordVararg, Value.none⟩] from
            by simp [varkwParams, hvk]] at hL
          have hvkget : PyDict.get? cv vk = some (.dict d) := by
            rw [hcv]
            refine get?_canonical_varkw hpv hwv hvk ?_ ?_ ?_
            · intro hm
              exact hdisj1 hm (by simp [hvk, Option.toList])
            · intro heq
              exact hdisj2 (show vk ∈ s.vararg.toList from by
                  simp [heq, Option.toList])
                (by simp [hvk, Option.toList])
            · intro hm
              exact hdisj3 hm (by simp [hvk, Option.toList])
          have hdisjkz : ∀ k ∈ PyDict.keys d, k ∉ PyDict.keys
              (s.kwonlyargs.zip
                (kwTVals cv s.kwonlyargs (posRemKw s.args ov okw))) := by
            intro k hk
            rw [PyDict.keys_zip _ _ (le_of_eq hwv2.symm)]
            exact (hdisj k hk).2.2
          have hfold : List.foldl (fun acc e => PyDict.insertKV acc e.1 e.2)
              (s.kwonlyargs.zip
                (kwTVals cv s.kwonlyargs (posRemKw s.args ov okw))) d =
              s.kwonlyargs.zip
                (kwTVals cv s.kwonlyargs (posRemKw s.args ov okw)) ++ d :=
            foldl_insertKV_append d _ hdisjkz hdnd
          cases hfd : findDouble (kwRemKw s.kwonlyargs (posRemKw s.args ov okw))
              (s.args ++ va :: s.kwonlyargs) with
          | some k =>
              have hLerr : rebindLoop cv [(⟨vk, .keywordVararg, Value.none⟩ : Param)]
                  ⟨posTVals cv s.args ov okw ++
                      (if s.args.length < ov.length then
                        ov.drop s.args.length else ts),
                    s.kwonlyargs.zip
                      (kwTVals cv s.kwonlyargs (posRemKw s.args ov okw)),
                    [], kwRemKw s.kwonlyargs (posRemKw s.args ov okw), b,
                    s.args ++ [va] ++ s.kwonlyargs⟩ =
                  .error (.doubleArgumentValue k) := by
                simp [rebindLoop, rebindStep, hvkget, Value.asDictList, hfd]
              rw [hLerr] at hL
              exact Except.noConfusion hL
          | none =>
              have hfdnone := findDouble_eq_none.1 hfd
              have hfr : ∀ k ∈ PyDict.keys
                  (kwRemKw s.kwonlyargs (posRemKw s.args ov okw)),
                  k ∉ PyDict.keys (s.kwonlyargs.zip
                    (kwTVals cv s.kwonlyargs (posRemKw s.args ov okw))) := by
                intro k hk
                rw [PyDict.keys_zip _ _ (le_of_eq hwv2.symm)]
                intro hm
                exact hfdnone k hk (by simp [hm])
              have hfold2 := foldl_insertKV_append_left
                (kwRemKw s.kwonlyargs (posRemKw s.args ov okw))
                (s.kwonlyargs.zip
                  (kwTVals cv s.kwonlyargs (posRemKw s.args ov okw))) d hfr
              have hL2 : rebindLoop cv [(⟨vk, .keywordVararg, Value.none⟩ : Param)]
                  ⟨posTVals cv s.args ov okw ++
                      (if s.args.length < ov.length then
                        ov.drop s.args.length else ts),
                    s.kwonlyargs.zip
                      (kwTVals cv s.kwonlyargs (posRemKw s.args ov okw)),
                    [], kwRemKw s.kwonlyargs (posRemKw s.args ov okw), b,
                    s.args ++ [va] ++ s.kwonlyargs⟩ =
                  .ok ⟨posTVals cv s.args ov okw ++
                      (if s.args.length < ov.length then
                        ov.drop s.args.length else ts),
                    s.kwonlyargs.zip
                      (kwTVals cv s.kwonlyargs (posRemKw s.args ov okw)) ++
                      (kwRemKw s.kwonlyargs (posRemKw s.args ov okw)).foldl
                        (fun acc e => PyDict.insertKV acc e.1 e.2) d,
                    [], [], b,
                    s.args ++ [va] ++ s.kwonlyargs ++ [vk]⟩ := by
                simp [rebindLoop, rebindStep, hvkget, Value.asDictList, hfd,
                  hfold, hfold2]
              rw [hL2] at hL
              injection hL with hst
              subst hst
              have hdisjm : ∀ k ∈ PyDict.keys
                  (mergeKV d (kwRemKw s.kwonlyargs (posRemKw s.args ov okw))),
                  k ∉ s.args ∧ s.vararg ≠ some k ∧ k ∉ s.kwonlyargs := by
                intro k hk
                rcases mem_keys_foldl_insertKV _ _ _ hk with h1 | h1
                · exact hdisj k h1
                · have hnp := hfdnone k h1
                  refine ⟨fun hm => hnp (by simp [hm]), ?_,
                    fun hm => hnp (by simp [hm])⟩
                  intro hh
                  rw [hva] at hh
                  injection hh with hh2
                  exact hnp (by simp [← hh2])
              have hfin := bindSig_canonical_input
                (posTVals cv s.args ov okw)
                (if s.args.length < ov.length then ov.drop s.args.length else ts)
                (kwTVals cv s.kwonlyargs (posRemKw s.args ov okw))
                (mergeKV d (kwRemKw s.kwonlyargs (posRemKw s.args ov okw)))
                hnd hpv2 hwv2 (fun hh => absurd (hh ▸ hva) (by simp))
                (fun hh => absurd (hh ▸ hvk) (by simp)) hdisjm
              have hveq := hfin.symm.trans hB
              injection hveq with hveq
              refine ⟨hveq.symm, ?_⟩
              intro k hk
              have hnp := hfdnone k hk
              refine ⟨fun hm => hnp (by simp [hm]), ?_,
                fun hm => hnp (by simp [hm])⟩
              intro hh
              injection hh with hh2
              exact hnp (by simp [← hh2])

/-- C6 (corrected): frame effect of re-binding.  On a successful
`copy`-style re-application, a positional parameter beyond the supplied
positional overrides and absent from the keyword overrides keeps its
previous bound value; a keyword-only parameter absent from the keyword
overrides keeps its previous bound value; the vararg tuple is kept
entirely when the positional overrides do not overflow the positional
parameters and replaced wholesale by the overflow when they do; and the
keyword-vararg dict is MERGED, not replaced: old entries whose key is
not overridden are retained and new foreign keyword overrides are
added. -/
theorem rebind_frame {s : Sig} {vals : PyDict} {ov : List Value}
    {okw vals' : PyDict}
    (hnd : (paramNames s).Nodup) (hkwn : (PyDict.keys okw).Nodup)
    (hgood : GoodVals s vals)
    (h : appliedCall s vals ov okw = .ok vals') :
    (∀ n ∈ s.args.drop ov.length, PyDict.get? okw n = Option.none →
      PyDict.get? vals' n = PyDict.get? vals n) ∧
    (∀ k ∈ s.kwonlyargs, PyDict.get? okw k = Option.none →
      PyDict.get? vals' k = PyDict.get? vals k) ∧
    (∀ va, s.vararg = some va →
      (ov.length ≤ s.args.length →
        PyDict.get? vals' va = PyDict.get? vals va) ∧
      (s.args.length < ov.length →
        PyDict.get? vals' va = some (.tuple (ov.drop s.args.length)))) ∧
    (∀ vk, s.varkw = some vk → ∃ dOld dNew : PyDict,
      PyDict.get? vals vk = some (.dict dOld) ∧
      PyDict.get? vals' vk = some (.dict dNew) ∧
      (∀ k w, PyDict.get? dOld k = some w →
        PyDict.get? okw k = Option.none → PyDict.get? dNew k = some w) ∧
      (∀ k w, PyDict.get? okw k = some w → k ∉ paramNames s →
        PyDict.get? dNew k = some w)) := by
  obtain ⟨pv, ts, wv, d, hpv, hwv, hts, hd, hdisjd, hdnd, rfl⟩ := hgood
  have hnd' : (s.args ++ (s.vararg.toList ++ (s.kwonlyargs ++ s.varkw.toList))).Nodup := by
    rw [← paramNames_eq]; exact hnd
  have hndargs : s.args.Nodup := (List.nodup_append.1 hnd').1
  have hdisj1 : s.args.Disjoint (s.vararg.toList ++ (s.kwonlyargs ++ s.varkw.toList)) :=
    (List.nodup_append.1 hnd').2.2
  have hnd2 : (s.vararg.toList ++ (s.kwonlyargs ++ s.varkw.toList)).Nodup :=
    (List.nodup_append.1 hnd').2.1
  have hdisj2 : (s.vararg.toList).Disjoint (s.kwonlyargs ++ s.varkw.toList) :=
    (List.nodup_append.1 hnd2).2.2
  have hnd3 : (s.kwonlyargs ++ s.varkw.toList).Nodup :=
    (List.nodup_append.1 hnd2).2.1
  have hndkw : s.kwonlyargs.Nodup := (List.nodup_append.1 hnd3).1
  have hdisj3 : s.kwonlyargs.Disjoint s.varkw.toList :=
    (List.nodup_append.1 hnd3).2.2
  obtain ⟨hveq, hdisjR⟩ := appliedCall_canonical_inv pv ts wv d hnd hpv hwv
    hts hd hdisjd hdnd h
  subst hveq
  set cv := canonicalVals s pv ts wv d with hcv
  have hpv2 : (posTVals cv s.args ov okw).length = s.args.length :=
    posTVals_length cv s.args ov okw
  have hwv2 : (kwTVals cv s.kwonlyargs (posRemKw s.args ov okw)).length =
      s.kwonlyargs.length :=
    kwTVals_length cv s.kwonlyargs (posRemKw s.args ov okw)
  have hgetparam : ∀ n ∈ paramNames s, ∃ w, PyDict.get? cv n = some w := by
    intro n hn
    refine PyDict.get?_isSome_of_mem ?_
    rw [GoodVals_keys ⟨pv, ts, wv, d, hpv, hwv, hts, hd, hdisjd, hdnd, hcv⟩]
    exact hn
  have hsub3 : (kwRemKw s.kwonlyargs (posRemKw s.args ov okw)).Sublist okw :=
    (kwRemKw_sublist _ _).trans (posRemKw_sublist _ _ _)
  have hsplit : canonicalVals s (posTVals cv s.args ov okw)
      (if s.args.length < ov.length then ov.drop s.args.length else ts)
      (kwTVals cv s.kwonlyargs (posRemKw s.args ov okw))
      (mergeKV d (kwRemKw s.kwonlyargs (posRemKw s.args ov okw))) =
      s.args.zip (posTVals cv s.args ov okw) ++
        (varargEntries s.vararg
          (if s.args.length < ov.length then ov.drop s.args.length else ts) ++
          (s.kwonlyargs.zip
            (kwTVals cv s.kwonlyargs (posRemKw s.args ov okw)) ++
            varkwEntries s.varkw
              (mergeKV d (kwRemKw s.kwonlyargs (posRemKw s.args ov okw))))) := by
    simp [canonicalVals, List.append_assoc]
  refine ⟨?_, ?_, ?_, ?_⟩
  · intro n hn hok
    have hnargs : n ∈ s.args := List.mem_of_mem_drop hn
    obtain ⟨w, hw⟩ := hgetparam n
      (by rw [paramNames_eq]; exact List.mem_append_left _ hnargs)
    rw [hsplit, get?_zip_posTVals cv s.args ov _ _ n hndargs hn hok, hw]
    simp
  · intro k hk hok
    have hk1 : k ∉ PyDict.keys (s.args.zip (posTVals cv s.args ov okw)) := by
      rw [PyDict.keys_zip _ _ (le_of_eq hpv2.symm)]
      exact fun hm => hdisj1 hm (by simp [hk])
    have hk2 : k ∉ PyDict.keys (varargEntries s.vararg
        (if s.args.length < ov.length then ov.drop s.args.length else ts)) := by
      rw [keys_varargEntries]
      exact fun hm => hdisj2 hm (by simp [hk])
    have hok2 : PyDict.get? (posRemKw s.args ov okw) k = Option.none :=
      sublist_get?_none (posRemKw_sublist _ _ _) hok
    obtain ⟨w, hw⟩ := hgetparam k
      (by
        rw [paramNames_eq]
        exact List.mem_append_right _ (List.mem_append_right _
          (List.mem_append_left _ hk)))
    rw [hsplit, PyDict.get?_append_right _ hk1, PyDict.get?_append_right _ hk2,
      get?_zip_kwTVals cv s.kwonlyargs _ _ k hndkw hk hok2, hw]
    simp
  · intro va hva
    have hvanotargs : va ∉ s.args :=
      fun hm => hdisj1 hm (by simp [hva, Option.toList])
    have hbase : PyDict.get? (canonicalVals s (posTVals cv s.args ov okw)
        (if s.args.length < ov.length then ov.drop s.args.length else ts)
        (kwTVals cv s.kwonlyargs (posRemKw s.args ov okw))
        (mergeKV d (kwRemKw s.kwonlyargs (posRemKw s.args ov okw)))) va =
        some (.tuple
          (if s.args.length < ov.length then ov.drop s.args.length else ts)) :=
      get?_canonical_vararg hpv2 hva hvanotargs
    have hold : PyDict.get? cv va = some (.tuple ts) := by
      rw [hcv]
      exact get?_canonical_vararg hpv hva hvanotargs
    constructor
    · intro hle
      rw [hbase, hold, if_neg (Nat.not_lt.2 hle)]
    · intro hlt
      rw [hbase, if_pos hlt]
  · intro vk hvk
    have hc1 : vk ∉ s.args :=
      fun hm => hdisj1 hm (by simp [hvk, Option.toList])
    have hc2 : s.vararg ≠ some vk := by
      intro heq
      exact hdisj2 (show vk ∈ s.vararg.toList from by
          simp [heq, Option.toList])
        (by simp [hvk, Option.toList])
    have hc3 : vk ∉ s.kwonlyargs :=
      fun hm => hdisj3 hm (by simp [hvk, Option.toList])
    have hold : PyDict.get? cv vk = some (.dict d) := by
      rw [hcv]
      exact get?_canonical_varkw hpv hwv hvk hc1 hc2 hc3
    have hnew : PyDict.get? (canonicalVals s (posTVals cv s.args ov okw)
        (if s.args.length < ov.length then ov.drop s.args.length else ts)
        (kwTVals cv s.kwonlyargs (posRemKw s.args ov okw))
        (mergeKV d (kwRemKw s.kwonlyargs (posRemKw s.args ov okw)))) vk =
        some (.dict
          (mergeKV d (kwRemKw s.kwonlyargs (posRemKw s.args ov okw)))) :=
      get?_canonical_varkw hpv2 hwv2 hvk hc1 hc2 hc3
    refine ⟨d, mergeKV d (kwRemKw s.kwonlyargs (posRemKw s.args ov okw)),
      hold, hnew, ?_, ?_⟩
    · intro k w hdk hok
      have hknot : k ∉ PyDict.keys
          (kwRemKw s.kwonlyargs (posRemKw s.args ov okw)) := by
        intro hm
        exact PyDict.get?_eq_none.1 hok ((hsub3.map Prod.fst).mem hm)
      rw [show mergeKV d (kwRemKw s.kwonlyargs (posRemKw s.args ov okw)) =
        (kwRemKw s.kwonlyargs (posRemKw s.args ov okw)).foldl
          (fun acc e => PyDict.insertKV acc e.1 e.2) d from rfl]
      rw [foldl_insertKV_get?_not_mem _ _ _ hknot]
      exact hdk
    · intro k w hkw hknp
      rw [paramNames_eq] at hknp
      have hknargs : k ∉ s.args := fun hm => hknp (by simp [hm])
      have hknkw : k ∉ s.kwonlyargs := fun hm => hknp (by simp [hm])
      have hget3 : PyDict.get? (kwRemKw s.kwonlyargs (posRemKw s.args ov okw))
          k = some w := by
        rw [kwRemKw_get?_ne _ _ _ hknkw, posRemKw_get?_ne _ _ _ _ hknargs]
        exact hkw
      have hnd3k : (PyDict.keys
          (kwRemKw s.kwonlyargs (posRemKw s.args ov okw))).Nodup :=
        hkwn.sublist (hsub3.map Prod.fst)
      rw [show mergeKV d (kwRemKw s.kwonlyargs (posRemKw s.args ov okw)) =
        (kwRemKw s.kwonlyargs (posRemKw s.args ov okw)).foldl
          (fun acc e => PyDict.insertKV acc e.1 e.2) d from rfl]
      exact foldl_insertKV_get?_mem _ _ _ _ hnd3k hget3

/-- Witness for C6 at `f(a, b=1, *c, **d)` bound to `(1, 2, 3, e=4)` and
re-bound with the single new keyword `f=5`: `a`, `b` and the vararg
tuple are kept, and the keyword-vararg dict merges the new entry. -/
theorem rebind_frame_witness :
    (∀ n ∈ sigAB.args.drop ([] : List Value).length,
      PyDict.get? [("f", Value.int 5)] n = Option.none →
      PyDict.get? [("a", Value.int 1), ("b", Value.int 2),
          ("c", Value.tuple [Value.int 3]),
          ("d", Value.dict [("e", Value.int 4), ("f", Value.int 5)])] n =
        PyDict.get? [("a", Value.int 1), ("b", Value.int 2),
          ("c", Value.tuple [Value.int 3]),
          ("d", Value.dict [("e", Value.int 4)])] n) ∧
    (∀ k ∈ sigAB.kwonlyargs,
      PyDict.get? [("f", Value.int 5)] k = Option.none →
      PyDict.get? [("a", Value.int 1), ("b", Value.int 2),
          ("c", Value.tuple [Value.int 3]),
          ("d", Value.dict [("e", Value.int 4), ("f", Value.int 5)])] k =
        PyDict.get? [("a", Value.int 1), ("b", Value.int 2),
          ("c", Value.tuple [Value.int 3]),
          ("d", Value.dict [("e", Value.int 4)])] k) ∧
    (∀ va, sigAB.vararg = some va →
      (([] : List Value).length ≤ sigAB.args.length →
        PyDict.get? [("a", Value.int 1), ("b", Value.int 2),
            ("c", Value.tuple [Value.int 3]),
            ("d", Value.dict [("e", Value.int 4), ("f", Value.int 5)])] va =
          PyDict.get? [("a", Value.int 1), ("b", Value.int 2),
            ("c", Value.tuple [Value.int 3]),
            ("d", Value.dict [("e", Value.int 4)])] va) ∧
      (sigAB.args.length < ([] : List Value).length →
        PyDict.get? [("a", Value.int 1), ("b", Value.int 2),
            ("c", Value.tuple [Value.int 3]),
            ("d", Value.dict [("e", Value.int 4), ("f", Value.int 5)])] va =
          some (.tuple (([] : List Value).drop sigAB.args.length)))) ∧
    (∀ vk, sigAB.varkw = some vk → ∃ dOld dNew : PyDict,
      PyDict.get? [("a", Value.int 1), ("b", Value.int 2),
          ("c", Value.tuple [Value.int 3]),
          ("d", Value.dict [("e", Value.int 4)])] vk = some (.dict dOld) ∧
      PyDict.get? [("a", Value.int 1), ("b", Value.int 2),
          ("c", Value.tuple [Value.int 3]),
          ("d", Value.dict [("e", Value.int 4), ("f", Value.int 5)])] vk =
        some (.dict dNew) ∧
      (∀ k w, PyDict.get? dOld k = some w →
        PyDict.get? [("f", Value.int 5)] k = Option.none →
        PyDict.get? dNew k = some w) ∧
      (∀ k w, PyDict.get? [("f", Value.int 5)] k = some w →
        k ∉ paramNames sigAB → PyDict.get? dNew k = some w)) :=
  rebind_frame (by decide) (by decide)
    ⟨[Value.int 1, Value.int 2], [Value.int 3], [], [("e", Value.int 4)],
      rfl, rfl, fun hh => absurd hh (by decide), fun hh => absurd hh (by decide),
      by
        intro k hk
        simp [PyDict.keys] at hk
        subst hk
        exact ⟨by decide, by decide, by decide⟩,
      by decide, rfl⟩
    rfl

/-- C6 counterexample to the claim as stated: supplying a new value for
the keyword-vararg slot does not discard the old entries.  For the
signature `(**d)` with `d` previously bound to the dict with entry
`e = 4`, re-binding with the new keyword `f = 5` produces the dict with
entries `e = 4` and `f = 5`: the old entry is retained (merge), not
discarded (wholesale replacement). -/
theorem varkw_merge_counterexample :
    appliedCall sigOnlyKw [("d", .dict [("e", .int 4)])] [] [("f", .int 5)] =
      .ok [("d", .dict [("e", .int 4), ("f", .int 5)])] ∧
    PyDict.get? [("e", Value.int 4), ("f", Value.int 5)] "e" =
      some (Value.int 4) :=
  ⟨rfl, rfl⟩

